import Mathlib

/-!
# into-ledger: the transaction-classification engine (`classification.go`)

A shallow embedding of `sanitize`, `removeDuplicates`, `categorizeByRules`,
`printAndGetResult`, `fuzzyAndGetResult`, `categorizeTxn`, `classifyTxn`, the closure
`applyToSimilarTxns` and the index walk of `showAndCategorizeTxns`.

Modelling conventions

* `time.Time` is an integer count of nanoseconds; `Add` and `After` are `+` and `>` on
  `Int`. A `time.Duration` is an int64 count of nanoseconds: the product
  `time.Duration(*dupWithin) * time.Hour` wraps (`wrap64`) and `Time.Sub` saturates
  (`subDuration`).
* The conversion `float64(d)` of a duration is the exact integer value of the nearest
  float64, ties to even (`float64OfInt`); every float64 in the int64 range above 2^53 is
  an integer, so the comparison of `within` is a comparison of integers.
* `Txn.Cur` is a float64 amount (`Amount`): the sign bit and, for a finite value, the
  magnitude as a count of a fixed unit (hundredths in the examples; only equality of
  magnitudes is ever tested); the infinities and NaN keep their sign bit.
* The float64 values that `printAndGetResult` returns are kept in tenths, so that `1.0`
  is `10`, `1.1` is `11`, `-1.0` is `-10` and `999999.0` is `9999990`; the conversion
  `int(res)` truncates toward zero.
* Standard input is the list of bytes still to be read. `p.writeToDB` appends its argument
  to a log of committed transactions.
* A function that aborts the process (`checkf` on an error, an index out of range) returns
  `none`. The loops without a bound in the source (`categorizeTxn` calling itself after a
  report, the index walk, the outer loop of `showAndCategorizeTxns`) take a `fuel` argument
  and return `none` when it is spent.
* `*dupWithin`, the shortcut menu of package `keys`, `p.topHits`, `fuzzySelectAccount`,
  `regexp.Match` and the date sort are parameters.
-/

namespace IntoLedger

/-! ## Data model -/

/-- A float64 amount: a finite value with its sign bit and magnitude (so that `-0.0` is
`finite true 0`), an infinity, or a NaN. -/
inductive Amount where
  | finite (neg : Bool) (mag : Nat)
  | inf (neg : Bool)
  | nan (neg : Bool)
deriving DecidableEq

/-- Unary minus on a float64: the sign bit is flipped. -/
def Amount.negate : Amount → Amount
  | .finite s m => .finite (!s) m
  | .inf s => .inf (!s)
  | .nan s => .nan (!s)

instance (n : Nat) : OfNat Amount n := ⟨.finite false n⟩

instance : Neg Amount := ⟨Amount.negate⟩

/-- Transaction record `Txn`; only the fields this file reads or writes. -/
structure Txn where
  Date : Int
  Desc : String
  Cur : Amount
  From : String
  To : String
  Done : Bool
deriving DecidableEq

/-- One hour, `time.Hour`, in nanoseconds. -/
def hour : Int := 3600000000000

/-- Library function `math.Signbit`: the sign bit of the float64, set for `-0.0` too. -/
def signbit : Amount → Bool
  | .finite s _ => s
  | .inf s => s
  | .nan s => s

/-- The comparison `math.Abs(a) == math.Abs(b)` on float64: equal magnitudes (`0.0` and
`-0.0` are equal), both infinite, and never true when one side is a NaN. -/
def absEq : Amount → Amount → Bool
  | .finite _ m, .finite _ n => decide (m = n)
  | .inf _, .inf _ => true
  | _, _ => false

/-- Two's-complement wrap of an integer to int64. -/
def wrap64 (x : Int) : Int := (x + 2 ^ 63) % 2 ^ 64 - 2 ^ 63

/-- Method `Time.Sub`: the difference as a `time.Duration`, the minimum or maximum
duration when it does not fit an int64. -/
def subDuration (a b : Int) : Int :=
  if a - b < -(2 ^ 63) then -(2 ^ 63)
  else if a - b > 2 ^ 63 - 1 then 2 ^ 63 - 1
  else a - b

/-- The number of low bits a float64 cannot keep of the natural number `n`: the least `k`
with `n / 2 ^ k < 2 ^ 53` (at most `fuel`). -/
def dropBits : Nat → Nat → Nat
  | 0, _ => 0
  | fuel + 1, n => if n < 2 ^ 53 then 0 else dropBits fuel (n / 2) + 1

/-- Rounding of `n` to the nearest multiple of `2 ^ k`, ties to the even multiple. -/
def roundBits (k n : Nat) : Nat :=
  if 2 * (n % 2 ^ k) < 2 ^ k then n / 2 ^ k * 2 ^ k
  else if 2 * (n % 2 ^ k) > 2 ^ k then (n / 2 ^ k + 1) * 2 ^ k
  else if n / 2 ^ k % 2 = 0 then n / 2 ^ k * 2 ^ k
  else (n / 2 ^ k + 1) * 2 ^ k

/-- The conversion `float64(n)` of a natural number below `2 ^ 64`: the value of the
nearest float64 (53 significant bits, ties to even), which is an integer. -/
def float64OfNat (n : Nat) : Nat := roundBits (dropBits 11 n) n

/-- The conversion `float64(x)` of an int64, as the exact integer value of the result. -/
def float64OfInt (x : Int) : Int :=
  if x < 0 then -(float64OfNat x.natAbs : Int) else (float64OfNat x.natAbs : Int)

/-! ## sanitize -/

/-- The mapping function handed to `strings.Map` in `sanitize`: `some r` keeps the rune,
`none` is the source's `-1` (drop the rune). -/
def sanitizeRune (r : Char) : Option Char :=
  if 'a' ≤ r ∧ r ≤ 'z' then some r
  else if 'A' ≤ r ∧ r ≤ 'Z' then some r
  else if '0' ≤ r ∧ r ≤ '9' then some r
  else if r = '*' then some r
  else if r = ':' then some r
  else if r = '/' then some r
  else if r = '.' then some r
  else if r = '-' then some r
  else none

/-- Source `sanitize`: `strings.Map` applies the mapping rune by rune and drops the runes
mapped to a negative value. -/
def sanitize (a : String) : String := ⟨a.data.filterMap sanitizeRune⟩

/-- The character class of the spec's Sanitizer: ASCII letters, ASCII digits and the five
characters `* : / . -`. Written from the spec's wording, to be compared with `sanitize`. -/
def allowedChar (c : Char) : Bool :=
  (('a' ≤ c ∧ c ≤ 'z') ∨ ('A' ≤ c ∧ c ≤ 'Z')) ∨ ('0' ≤ c ∧ c ≤ '9') ∨
    c = '*' ∨ c = ':' ∨ c = '/' ∨ c = '.' ∨ c = '-'

/-- ASCII letter test, the complement of the class `[^a-zA-Z]` of `lettersOnly`. -/
def isLetter (c : Char) : Bool := ('a' ≤ c ∧ c ≤ 'z') ∨ ('A' ≤ c ∧ c ≤ 'Z')

/-- The call `lettersOnly.ReplaceAllString(s, "")` with `lettersOnly = [^a-zA-Z]+`: every
maximal run of non-letters is replaced by the empty string, so exactly the letters stay. -/
def lettersOnlyStrip (s : String) : String := ⟨s.data.filter isLetter⟩

/-! ## removeDuplicates -/

/-- Modelled from the spec: `byTime`, the ordering handed to `sort.Sort`, is declared
outside `classification.go`; the spec says both lists are "sorted ascending by date".
A sort is any function that returns a date-ascending permutation of its argument; the
order among equal timestamps is left open, as `sort.Sort` is not stable. -/
def IsByTimeSort (srt : List Txn → List Txn) : Prop :=
  ∀ l, (srt l).Perm l ∧ (srt l).Sorted (fun a b => a.Date ≤ b.Date)

/-- A concrete date sort, used to run `removeDuplicates` on examples. -/
def sortByTime (l : List Txn) : List Txn := l.insertionSort (fun a b => a.Date ≤ b.Date)

/-- The first loop of `removeDuplicates`: the suffix of the history that starts at the
first entry dated after `first`, or `none` when the loop ends without a `break`. -/
def scanStart (first : Int) : List Txn → Option (List Txn)
  | [] => none
  | t :: rest => if t.Date > first then some (t :: rest) else scanStart first rest

/-- The closure `within` of `removeDuplicates`:
`math.Abs(float64(a.Sub(b))) <= float64(allowed)`. -/
def within (allowed : Int) (a b : Int) : Bool :=
  decide ((float64OfNat (subDuration a b).natAbs : Int) ≤ float64OfInt allowed)

/-- The inner loop of `removeDuplicates` over `prev`, returning the flag `found`. -/
def found (allowed : Int) (t : Txn) : List Txn → Bool
  | [] => false
  | pr :: rest =>
    if pr.Date > t.Date + allowed then false
    else if sanitize t.Desc = sanitize pr.Desc ∧ within allowed pr.Date t.Date = true
        ∧ absEq pr.Cur t.Cur = true then true
    else found allowed t rest

/-- Source `removeDuplicates`. `ptxns` is the history `p.txns`, `dupWithin` the flag
`*dupWithin` (hours). Returns the history as the call leaves it (sorted in place) and the
filtered batch `final`. -/
def removeDuplicates (srt : List Txn → List Txn) (ptxns : List Txn) (dupWithin : Int)
    (txns : List Txn) : List Txn × List Txn :=
  if txns.length = 0 then (ptxns, txns)
  else
    let ptxns := srt ptxns
    let txns := srt txns
    match txns with
    | [] => (ptxns, [])
    | t0 :: _ =>
      let first := t0.Date + (-24) * hour
      let prev := (scanStart first ptxns).getD ptxns
      let allowed := wrap64 (dupWithin * hour)
      (ptxns, txns.filter (fun t => !found allowed t prev))

/-- The duplicate relation of the spec's Deduplicator: equal sanitized descriptions, dates
at most `window` apart, equal absolute amounts. -/
def isDupOf (window : Int) (h t : Txn) : Prop :=
  sanitize h.Desc = sanitize t.Desc ∧ ((h.Date - t.Date).natAbs : Int) ≤ window
    ∧ absEq h.Cur t.Cur = true

instance (window : Int) (h t : Txn) : Decidable (isDupOf window h t) := by
  unfold isDupOf; infer_instance

/-! ## categorizeByRules -/

/-- The contents of `rules.yaml`: category name and its patterns, in the order in which
one `range` over the map yields the categories. -/
abbrev Rules := List (String × List String)

/-- The inner loop of `matchesCategory` over the patterns of one category. `re` is
`regexp.Match` (`none`: the pattern does not compile, and `checkf` aborts). -/
def matchPatterns (re : String → String → Option Bool) (desc : String) :
    List String → Option Bool
  | [] => some false
  | pattern :: rest =>
    match re pattern desc with
    | none => none
    | some true => some true
    | some false => matchPatterns re desc rest

/-- The closure `matchesCategory` of `categorizeByRules`, run over the categories in the
order `rules`; the empty string is the source's "no category". -/
def matchesCategory (re : String → String → Option Bool) (t : Txn) : Rules → Option String
  | [] => some ""
  | (category, patterns) :: rest =>
    match matchPatterns re t.Desc patterns with
    | none => none
    | some true => some category
    | some false => matchesCategory re t rest

/-- The main loop of `categorizeByRules` from the `k`-th transaction on: the pair of
`unmatched` and of the transactions handed to `p.writeToDB`, in order. `iter k` is the
order in which the map is ranged over for the `k`-th transaction. -/
def rulesLoop (re : String → String → Option Bool) (iter : Nat → Rules) :
    Nat → List Txn → Option (List Txn × List Txn)
  | _, [] => some ([], [])
  | k, t :: rest =>
    match matchesCategory re t (iter k) with
    | none => none
    | some cat =>
      match rulesLoop re iter (k + 1) rest with
      | none => none
      | some (unmatched, written) =>
        if cat.length > 0 then some (unmatched, { t with From := cat } :: written)
        else some (t :: unmatched, written)

/-- Source `categorizeByRules`. `file` is `none` when `rules.yaml` cannot be read (the
batch is returned as it is). Returns `unmatched` and the log of commits. -/
def categorizeByRules (re : String → String → Option Bool) (file : Option (Nat → Rules))
    (txns : List Txn) (db : List Txn) : Option (List Txn × List Txn) :=
  match file with
  | none => some (txns, db)
  | some iter =>
    match rulesLoop re iter 0 txns with
    | none => none
    | some (unmatched, written) => some (unmatched, db ++ written)

/-- A transaction matches the rule set: some pattern of some category matches its
description. -/
def ruleMatches (m : String → String → Bool) (rules : Rules) (t : Txn) : Bool :=
  rules.any (fun r => r.2.any (fun pattern => m pattern t.Desc))

/-- What a commit of the rule path records for the transaction `t`: `t` with its source
account set to a category of `rules` that has a pattern matching the description. -/
def RuleCommit (m : String → String → Bool) (rules : Rules) (t c : Txn) : Prop :=
  c = { t with From := c.From } ∧ ∃ r ∈ rules, r.1 = c.From ∧ ∃ p ∈ r.2, m p t.Desc = true

/-- A stand-in for `regexp.Match` on the patterns `^literal` only, for running examples:
the description has to start with the literal; any other pattern matches nothing. -/
def anchoredLiteral (pattern desc : String) : Bool :=
  match pattern.data with
  | '^' :: lit => lit.isPrefixOf desc.data
  | _ => false

/-! ## The category selector: printAndGetResult -/

/-- The two queries of the shortcut-menu collaborator (package `keys`) that the selector
makes: `MapsTo ch label` and `HasLabel label`. -/
structure Shortcuts where
  MapsTo : Char → String → Option String
  HasLabel : String → Bool

/-- Result `1.0`. -/
abbrev resAdvance : Int := 10
/-- Result `0`. -/
abbrev resStay : Int := 0
/-- Result `-1.0`. -/
abbrev resBack : Int := -10
/-- Result `1.1`. -/
abbrev resSkip : Int := 11
/-- Result `999999.0`. -/
abbrev resQuit : Int := 9999990
/-- Constant `SamePayeeAction = 999991.0`. -/
abbrev SamePayeeAction : Int := 9999910
/-- Constant `SameAmountAction = 999990.0`. -/
abbrev SameAmountAction : Int := 9999900
/-- Constant `math.MaxFloat32`. -/
abbrev MaxFloat32 : Int := 3402823466385288598117041834845169254400

/-- Conversion `int(res)` of a float64 result: truncation toward zero. -/
def goInt (res : Int) : Int := Int.tdiv res 10

/-- Source `assignAccount`. -/
def assignAccount (t : Txn) (accountName : String) : Txn := { t with From := accountName }

/-- The local state of one run of `printAndGetResult`, with the transaction behind the
pointer `t` and the commit log. -/
structure SelState where
  label : String
  repeated : Bool
  category : List String
  t : Txn
  db : List Txn
deriving DecidableEq

/-- The outcome of the code between `LOOP:` and the end of `printAndGetResult` for one
byte read: a `return`, or the `goto LOOP`. -/
inductive Step where
  | ret (res : Int) (t : Txn) (db : List Txn)
  | next (st : SelState)
deriving DecidableEq

/-- The reserved options of the `switch` in `printAndGetResult`. -/
def controlResult (opt : String) : Option Int :=
  if opt = ".back" then some resBack
  else if opt = ".skip" then some resSkip
  else if opt = ".quit" then some resQuit
  else if opt = ".show same amount" then some SameAmountAction
  else if opt = ".show same payee" then some SamePayeeAction
  else if opt = ".show all" then some MaxFloat32
  else none

/-- The commit condition of `printAndGetResult`:
`ch == rune(10) && len(t.To) > 0 && len(t.From) > 0`. -/
def commitFires (ch : Char) (t : Txn) : Bool :=
  decide (ch = Char.ofNat 10 ∧ t.To.length > 0 ∧ t.From.length > 0)

/-- One pass through the body of `printAndGetResult` after the byte `ch` is read. -/
def keystroke (ks : Shortcuts) (st : SelState) (ch : Char) : Step :=
  if commitFires ch st.t then
    .ret (if st.repeated then resStay else resAdvance) { st.t with Done := true }
      (st.db ++ [st.t])
  else
    match ks.MapsTo ch st.label with
    | some opt =>
      match controlResult opt with
      | some res => .ret res st.t st.db
      | none =>
        let category := st.category ++ [opt]
        let t := assignAccount st.t (String.intercalate ":" category)
        if ks.HasLabel opt then .next ⟨opt, true, category, t, st.db⟩
        else .ret resStay t st.db
    | none => .ret resStay st.t st.db

/-- The loop of `printAndGetResult` from a given local state: a failed read aborts. -/
def selectorLoop (ks : Shortcuts) : SelState → List Char →
    Option (Int × Txn × List Txn × List Char)
  | _, [] => none
  | st, ch :: rest =>
    match keystroke ks st ch with
    | .ret res t db => some (res, t, db, rest)
    | .next st' => selectorLoop ks st' rest

/-- The local state of `printAndGetResult` on entry. -/
def initState (t : Txn) (db : List Txn) : SelState := ⟨"default", false, [], t, db⟩

/-- Source `printAndGetResult`: result, transaction, commit log and unread input. -/
def printAndGetResult (ks : Shortcuts) (t : Txn) (db : List Txn) (input : List Char) :
    Option (Int × Txn × List Txn × List Char) :=
  selectorLoop ks (initState t db) input

/-! ## The review loop -/

/-- The collaborators of the review: `p.topHits`, the shortcut menu built in
`categorizeTxn` from the hits (`setDefaultMappings` and `AutoAssign`), and
`fuzzySelectAccount`. -/
structure Collab where
  topHits : String → List String
  shortcuts : List String → Shortcuts
  fuzzySelectAccount : Txn → String

/-- Source `fuzzyAndGetResult`. -/
def fuzzyAndGetResult (env : Collab) (t : Txn) (db : List Txn) : Int × Txn × List Txn :=
  let t := assignAccount t (env.fuzzySelectAccount t)
  if t.To.length > 0 ∧ t.From.length > 0 then (resAdvance, { t with Done := true }, db ++ [t])
  else (resStay, t, db)

/-- Source `execAction`, as far as the input goes: one byte is read, a failed read
aborts. -/
def execAction (input : List Char) : Option (List Char) :=
  match input with
  | [] => none
  | _ :: rest => some rest

/-- Source `categorizeTxn`. The recursion after a report action is bounded by `fuel`;
`none` is an aborted run or spent fuel. -/
def categorizeTxn (env : Collab) : Nat → Txn → List Txn → List Char →
    Option (Int × Txn × List Txn × List Char)
  | 0, _, _, _ => none
  | fuel + 1, t, db, input =>
    match printAndGetResult (env.shortcuts (env.topHits t.Desc)) t db input with
    | none => none
    | some (res, t, db, rest) =>
      if res = MaxFloat32 then
        let r := fuzzyAndGetResult env t db
        some (r.1, r.2.1, r.2.2, rest)
      else if res = SamePayeeAction ∨ res = SameAmountAction then
        match execAction rest with
        | none => none
        | some rest => categorizeTxn env fuel t db rest
      else some (res, t, db, rest)

/-- Source `classifyTxn`; `hits[0]` on an empty list aborts. -/
def classifyTxn (env : Collab) (t : Txn) : Option Txn :=
  if !t.Done then
    match env.topHits t.Desc with
    | [] => none
    | hit :: _ => some { t with From := hit }
  else some t

/-- The loop of the closure `applyToSimilarTxns` over `txns[i:]`: the returned index and
the slice as the loop leaves it. -/
def similarLoop (t : Txn) (src : String) : Nat → List Txn → Nat × List Txn
  | i, [] => (i, [])
  | i, dst :: rest =>
    if src ≠ lettersOnlyStrip dst.Desc then (i, dst :: rest)
    else if signbit t.Cur ≠ signbit dst.Cur then (i, dst :: rest)
    else
      let r := similarLoop t src (i + 1) rest
      (r.1, { dst with From := t.From, Done := true } :: r.2)

/-- The closure `applyToSimilarTxns` of `showAndCategorizeTxns`: the returned index and
the batch after the propagation; `txns[from]` out of range aborts. -/
def applyToSimilarTxns (txns : List Txn) (frm : Nat) : Option (Nat × List Txn) :=
  match txns[frm]? with
  | none => none
  | some t =>
    let r := similarLoop t (lettersOnlyStrip t.Desc) (frm + 1) (txns.drop (frm + 1))
    some (r.1, txns.take (frm + 1) ++ r.2)

/-- The state of the index walk of `showAndCategorizeTxns`. -/
structure Walk where
  txns : List Txn
  i : Int
  db : List Txn
  input : List Char
deriving DecidableEq

/-- A read whose error is dropped (`_, _ = os.Stdin.Read(b)`): the buffer keeps its zero
byte when nothing is read. -/
def readByte (input : List Char) : Char × List Char :=
  match input with
  | [] => (Char.ofNat 0, [])
  | b :: rest => (b, rest)

/-- The loop condition `i < len(txns) && i >= 0` of the walk. -/
def walkGuard (w : Walk) : Bool := decide (w.i < (w.txns.length : Int) ∧ w.i ≥ 0)

/-- One iteration of the walk `for i := 0; i < len(txns) && i >= 0;` of
`showAndCategorizeTxns`, entered with the loop condition true. -/
def walkStep (env : Collab) (fuel : Nat) (w : Walk) : Option Walk :=
  match w.txns[w.i.toNat]? with
  | none => none
  | some t =>
    match categorizeTxn env fuel t w.db w.input with
    | none => none
    | some (res, t, db, rest) =>
      let txns := w.txns.set w.i.toNat t
      if res = resAdvance then
        match applyToSimilarTxns txns w.i.toNat with
        | none => none
        | some (upto, txns) =>
          if (upto : Int) = w.i + 1 then some ⟨txns, w.i + goInt res, db, rest⟩
          else
            some ⟨txns, upto, db ++ (txns.take upto).drop (w.i.toNat + 1), (readByte rest).2⟩
      else some ⟨txns, w.i + goInt res, db, rest⟩

/-- The walk of `showAndCategorizeTxns`, at most `fuel` iterations; `none` is an aborted
run or spent fuel. -/
def walk (env : Collab) : Nat → Walk → Option Walk
  | 0, _ => none
  | fuel + 1, w =>
    if walkGuard w then
      match walkStep env (fuel + 1) w with
      | none => none
      | some w' => walk env fuel w'
    else some w

/-- The first loop of a pass of `showAndCategorizeTxns`: `classifyTxn` on every
transaction. -/
def classifyAll (env : Collab) : List Txn → Option (List Txn)
  | [] => some []
  | t :: rest =>
    match classifyTxn env t with
    | none => none
    | some t' =>
      match classifyAll env rest with
      | none => none
      | some rest' => some (t' :: rest')

/-- Source `showAndCategorizeTxns`, at most `fuel` passes of its outer loop: the batch,
the commit log and the unread input when the user declines the review. -/
def showAndCategorizeTxns (env : Collab) : Nat → List Txn → List Txn → List Char →
    Option (List Txn × List Txn × List Char)
  | 0, _, _, _ => none
  | fuel + 1, rtxns, db, input =>
    match classifyAll env rtxns with
    | none => none
    | some txns =>
      let b := readByte input
      if b.1 = 'n' ∨ b.1 = 'q' then some (txns, db, b.2)
      else
        match walk env (fuel + 1) ⟨txns, 0, db, b.2⟩ with
        | none => none
        | some w => showAndCategorizeTxns env fuel w.txns w.db w.input

/-- The completeness invariant of the data model on a batch. -/
def Complete (txns : List Txn) : Prop :=
  ∀ t ∈ txns, t.Done = true → t.From ≠ "" ∧ t.To ≠ ""

instance (txns : List Txn) : Decidable (Complete txns) := by
  unfold Complete; infer_instance

/-- The letters-only key of the spec's SimilarityPropagator: the description with every
character other than an ASCII letter removed. Written from the spec's wording, to be
compared with `lettersOnlyStrip`. -/
def lettersKey (s : String) : String := ⟨s.data.filter Char.isAlpha⟩

/-- The similarity of the spec's SimilarityPropagator: identical letters-only key,
identical amount sign. -/
def similar (t dst : Txn) : Prop :=
  lettersKey t.Desc = lettersKey dst.Desc ∧ signbit t.Cur = signbit dst.Cur

instance (t dst : Txn) : Decidable (similar t dst) := by
  unfold similar; infer_instance

/-- What `applyToSimilarTxns` writes into a similar transaction `dst`. -/
def propagated (t dst : Txn) : Txn := { dst with From := t.From, Done := true }

/-- The local state of `printAndGetResult` after the bytes `pre`, when every one of them
ends in `goto LOOP`; `none` when one of them returns. -/
def afterKeys (ks : Shortcuts) : SelState → List Char → Option SelState
  | st, [] => some st
  | st, ch :: rest =>
    match keystroke ks st ch with
    | .next st' => afterKeys ks st' rest
    | .ret _ _ _ => none

/-- The local state of `printAndGetResult` once the labels `ls` (at least one) have been
selected, each entering its nested context. -/
def labelState (t : Txn) (db : List Txn) (ls : List String) : SelState :=
  match ls with
  | [] => initState t db
  | _ :: _ =>
    ⟨ls.getLastD "default", true, ls, { t with From := String.intercalate ":" ls }, db⟩

/-- The byte `ch` is a category-label keystroke for the label `l` in the state `st`: the
commit condition is false, the active context maps `ch` to `l`, and `l` is none of the
reserved options. -/
def labelKey (ks : Shortcuts) (st : SelState) (ch : Char) (l : String) : Prop :=
  commitFires ch st.t = false ∧ ks.MapsTo ch st.label = some l ∧ controlResult l = none

instance (ks : Shortcuts) (st : SelState) (ch : Char) (l : String) :
    Decidable (labelKey ks st ch l) := by
  unfold labelKey; infer_instance

/-- Every pair `(ch, l)` of `path`, read in turn after the labels `ls`, is a
category-label keystroke for `l`, and `l` defines a nested context. -/
def LabelPath (ks : Shortcuts) (t : Txn) (db : List Txn) :
    List String → List (Char × String) → Prop
  | _, [] => True
  | ls, (ch, l) :: rest =>
    labelKey ks (labelState t db ls) ch l ∧ ks.HasLabel l = true ∧
      LabelPath ks t db (ls ++ [l]) rest

/-- Decision procedure for `LabelPath`, by recursion on the path. -/
def decLabelPath (ks : Shortcuts) (t : Txn) (db : List Txn) :
    ∀ (ls : List String) (path : List (Char × String)), Decidable (LabelPath ks t db ls path)
  | _, [] => isTrue trivial
  | ls, (ch, l) :: rest =>
    haveI := decLabelPath ks t db (ls ++ [l]) rest
    inferInstanceAs (Decidable (labelKey ks (labelState t db ls) ch l ∧
      ks.HasLabel l = true ∧ LabelPath ks t db (ls ++ [l]) rest))

instance (ks : Shortcuts) (t : Txn) (db : List Txn) (ls : List String)
    (path : List (Char × String)) : Decidable (LabelPath ks t db ls path) :=
  decLabelPath ks t db ls path

/-! ## Example inputs -/

/-- History entry: 2024-01-01, "AMAZON.COM", -20.00. -/
def amazonJan1 : Txn := ⟨0, "AMAZON.COM", -2000, "", "", false⟩
/-- History entry: 2024-01-05, "NETFLIX", -15.00. -/
def netflixJan5 : Txn := ⟨96 * hour, "NETFLIX", -1500, "", "", false⟩
/-- New transaction: 2024-01-02, "AMAZON.COM  ", -20.00. -/
def amazonJan2 : Txn := ⟨24 * hour, "AMAZON.COM  ", -2000, "", "", false⟩

/-- History entry: 2024-01-01, "GROCER", -30.00. -/
def grocerJan1 : Txn := ⟨0, "GROCER", -3000, "", "", false⟩
/-- History entry: 2024-01-02, "CAFE", -5.00. -/
def cafeJan2 : Txn := ⟨24 * hour, "CAFE", -500, "", "", false⟩
/-- New transaction: 2024-01-02, "CAFE", -5.00. -/
def cafeNew : Txn := ⟨24 * hour, "CAFE", -500, "", "Assets:Checking", false⟩
/-- New transaction: 2024-01-03, "GROCER", -30.00. -/
def grocerNew : Txn := ⟨48 * hour, "GROCER", -3000, "", "Assets:Checking", false⟩

/-- A batch for the propagation: index 2 is "STARBUCKS" with a negative amount, indices 3
and 4 share the letters-only key and the sign, index 5 has the other sign. -/
def starbucksBatch : List Txn :=
  [⟨0, "RENT JAN", -90000, "Expenses:Rent", "Assets:Checking", true⟩,
   ⟨0, "SHELL 0042", -3500, "Expenses:Car", "Assets:Checking", true⟩,
   ⟨0, "STARBUCKS #123", -450, "Expenses:Food", "Assets:Checking", true⟩,
   ⟨0, "STARBUCKS #456", -475, "", "Assets:Checking", false⟩,
   ⟨0, "STARBUCKS 789", -500, "Income:Misc", "Assets:Checking", false⟩,
   ⟨0, "STARBUCKS #123", 450, "", "Assets:Checking", false⟩]

/-- The rule set `{"Expenses:Food": ["^STARBUCKS"]}`. -/
def foodRules : Rules := [("Expenses:Food", ["^STARBUCKS"])]
/-- A rule set whose only category has the empty name. -/
def unnamedRules : Rules := [("", ["^STARBUCKS"])]
/-- Transaction "STARBUCKS #123", -4.50. -/
def starbucks123 : Txn := ⟨0, "STARBUCKS #123", -450, "", "Assets:Checking", false⟩
/-- Transaction "STARBUCKS #456", -4.75. -/
def starbucks456 : Txn := ⟨0, "STARBUCKS #456", -475, "", "Assets:Checking", false⟩

/-- A shortcut menu: `e` is "Expenses" in the root context, `t` is "Travel" in the context
"Expenses", `b` is back, `q` is quit and `a` is show-all in the root context; "Expenses"
is the only label with a nested context. -/
def demoKeys : Shortcuts where
  MapsTo := fun ch label =>
    if label = "default" ∧ ch = 'e' then some "Expenses"
    else if label = "default" ∧ ch = 'b' then some ".back"
    else if label = "default" ∧ ch = 'q' then some ".quit"
    else if label = "default" ∧ ch = 'a' then some ".show all"
    else if label = "Expenses" ∧ ch = 't' then some "Travel"
    else none
  HasLabel := fun label => label = "default" ∨ label = "Expenses"

/-- Collaborators for the examples: one suggestion, the menu `demoKeys`, and a fuzzy
resolver that returns no account. -/
def demoEnv : Collab where
  topHits := fun _ => ["Expenses:Food"]
  shortcuts := fun _ => demoKeys
  fuzzySelectAccount := fun _ => ""

/-- A batch whose second transaction has no destination account. -/
def coffeeBatch : List Txn :=
  [⟨0, "STARBUCKS #1", -450, "", "Assets:Checking", false⟩,
   ⟨0, "STARBUCKS #2", -475, "", "", false⟩]

/-- A batch of one complete transaction. -/
def doneBatch : List Txn :=
  [⟨0, "STARBUCKS #1", -450, "Expenses:Food", "Assets:Checking", true⟩]

/-- A transaction with the destination account set and no source account. -/
def taxi : Txn := ⟨0, "TAXI 17", -1800, "", "Assets:Checking", false⟩

/-- The value of `prev` in `removeDuplicates` when the scan loops start: the part of the
(sorted) history `ptxns` that the inner loop ranges over, for a batch whose first
transaction after sorting is `t0`. -/
def scanned (ptxns : List Txn) (t0 : Txn) : List Txn :=
  (scanStart (t0.Date + (-24) * hour) ptxns).getD ptxns

/-- The indices at which the walk of `showAndCategorizeTxns` runs an iteration, that is,
calls `categorizeTxn` and, after a result `1.0`, `applyToSimilarTxns`; in order, for at
most `fuel` iterations. -/
def walkIndices (env : Collab) : Nat → Walk → List Int
  | 0, _ => []
  | fuel + 1, w =>
    if walkGuard w then
      w.i :: (match walkStep env (fuel + 1) w with
        | none => []
        | some w' => walkIndices env fuel w')
    else []

/-- History entry: 2023-12-28, "AMAZON.COM", -20.00. -/
def amazonDec28 : Txn := ⟨-96 * hour, "AMAZON.COM", -2000, "", "", false⟩

/-- A rule set in which the patterns of two categories match "STARBUCKS #123". -/
def overlapRules : Rules := [("Expenses:Coffee", ["^STARBUCKS"]), ("Expenses:Food", ["^STAR"])]

/-- A transaction with both accounts set, not yet complete. -/
def paidTaxi : Txn := ⟨0, "TAXI 17", -1800, "Expenses:Travel", "Assets:Checking", false⟩

/-- A batch of one million transactions. -/
def bigBatch : List Txn := List.replicate 1000000 paidTaxi

/-- A shortcut menu whose root context maps `s` to skip and nothing else. -/
def skipKeys : Shortcuts where
  MapsTo := fun ch label => if label = "default" ∧ ch = 's' then some ".skip" else none
  HasLabel := fun label => label = "default"

/-- Collaborators with the menu `skipKeys`. -/
def skipEnv : Collab where
  topHits := fun _ => ["Expenses:Food"]
  shortcuts := fun _ => skipKeys
  fuzzySelectAccount := fun _ => ""

/-- The test of the inner loop of `removeDuplicates` on a history entry `pr` and a new
transaction `t`. -/
def dupTest (allowed : Int) (pr t : Txn) : Prop :=
  sanitize t.Desc = sanitize pr.Desc ∧ within allowed pr.Date t.Date = true ∧
    absEq pr.Cur t.Cur = true

instance (allowed : Int) (pr t : Txn) : Decidable (dupTest allowed pr t) := by
  unfold dupTest; infer_instance

/-- New transaction: "AMAZON.COM", -20.00, dated 3000 hours and one nanosecond after
2024-01-01. -/
def amazonLate : Txn := ⟨3000 * hour + 1, "AMAZON.COM", -2000, "", "", false⟩

/-- Transaction "STARLINK 42", -99.00: of the patterns of `overlapRules` only `^STAR`
matches it. -/
def starlink : Txn := ⟨0, "STARLINK 42", -9900, "", "Assets:Checking", false⟩

/-- A transaction with a positive amount, the destination account set and no source
account. -/
def refund : Txn := ⟨0, "TAXI REFUND", 1800, "", "Assets:Checking", false⟩

/-- A batch of two transactions with the same letters-only description, amounts -4.50 and
`-0.0`. -/
def zeroBatch : List Txn :=
  [⟨0, "STARBUCKS #1", -450, "Expenses:Food", "Assets:Checking", true⟩,
   ⟨0, "STARBUCKS #2", -0, "", "Assets:Checking", false⟩]

/-! ## Theorems: sanitize -/

theorem sanitizeRune_eq (c : Char) :
    sanitizeRune c = if allowedChar c = true then some c else none := by
  by_cases h1 : 'a' ≤ c ∧ c ≤ 'z'
  · simp [sanitizeRune, allowedChar, h1]
  by_cases h2 : 'A' ≤ c ∧ c ≤ 'Z'
  · simp [sanitizeRune, allowedChar, h1, h2]
  by_cases h3 : '0' ≤ c ∧ c ≤ '9'
  · simp [sanitizeRune, allowedChar, h1, h2, h3]
  by_cases h4 : c = '*'
  · simp [sanitizeRune, allowedChar, h1, h2, h3, h4]
  by_cases h5 : c = ':'
  · simp [sanitizeRune, allowedChar, h1, h2, h3, h4, h5]
  by_cases h6 : c = '/'
  · simp [sanitizeRune, allowedChar, h1, h2, h3, h4, h5, h6]
  by_cases h7 : c = '.'
  · simp [sanitizeRune, allowedChar, h1, h2, h3, h4, h5, h6, h7]
  by_cases h8 : c = '-'
  · simp [sanitizeRune, allowedChar, h1, h2, h3, h4, h5, h6, h7, h8]
  simp [sanitizeRune, allowedChar, h1, h2, h3, h4, h5, h6, h7, h8]

theorem sanitize_data (a : String) : (sanitize a).data = a.data.filter allowedChar := by
  unfold sanitize
  show a.data.filterMap sanitizeRune = a.data.filter allowedChar
  induction a.data with
  | nil => rfl
  | cons c cs ih =>
    rw [List.filterMap_cons, List.filter_cons, sanitizeRune_eq, ih]
    by_cases h : allowedChar c = true <;> simp [h]

theorem whitespace_not_allowed (c : Char) (h : c.isWhitespace = true) :
    allowedChar c = false := by
  simp only [Char.isWhitespace, Bool.or_eq_true, decide_eq_true_eq] at h
  rcases h with ((h | h) | h) | h <;> subst h <;> decide

/-- C8: for every input, `sanitize` returns exactly the input with every character outside
the allowed class (ASCII letters, ASCII digits, `* : / . -`) deleted. The output is a
subsequence of the input, holds allowed characters only, keeps every occurrence of an
allowed character, and holds no whitespace. -/
theorem sanitize_spec (a : String) :
    (sanitize a).data = a.data.filter allowedChar ∧
    (sanitize a).data.Sublist a.data ∧
    (∀ c ∈ (sanitize a).data, allowedChar c = true) ∧
    (∀ c, allowedChar c = true → (sanitize a).data.count c = a.data.count c) ∧
    (∀ c, c.isWhitespace = true → c ∉ (sanitize a).data) := by
  rw [sanitize_data]
  refine ⟨rfl, List.filter_sublist _, ?_, ?_, ?_⟩
  · intro c hc
    exact (List.mem_filter.mp hc).2
  · intro c hc
    exact List.count_filter hc
  · intro c hc hmem
    have := (List.mem_filter.mp hmem).2
    rw [whitespace_not_allowed c hc] at this
    exact Bool.noConfusion this

/-! ## Theorems: removeDuplicates -/

theorem sortByTime_isByTimeSort : IsByTimeSort sortByTime := by
  intro l
  refine ⟨List.perm_insertionSort _ l, ?_⟩
  have : IsTotal Txn (fun a b => a.Date ≤ b.Date) := ⟨fun a b => le_total a.Date b.Date⟩
  have : IsTrans Txn (fun a b => a.Date ≤ b.Date) := ⟨fun a b c h1 h2 => le_trans h1 h2⟩
  exact List.sorted_insertionSort _ l

theorem sorted_perm_eq_of_strict : ∀ (l l' : List Txn),
    l.Sorted (fun a b => a.Date < b.Date) → l'.Perm l →
    l'.Sorted (fun a b => a.Date ≤ b.Date) → l' = l
  | [], l', _, hp, _ => hp.eq_nil
  | a :: t, [], _, hp, _ => absurd hp.symm.eq_nil (by simp)
  | a :: t, b :: t', hs, hp, hs' => by
    have hb : b ∈ a :: t := hp.subset (List.mem_cons_self _ _)
    have ha : a ∈ b :: t' := hp.symm.subset (List.mem_cons_self _ _)
    have hab : b = a := by
      rcases List.mem_cons.mp hb with h | h
      · exact h
      · have h1 : a.Date < b.Date := List.rel_of_sorted_cons hs b h
        rcases List.mem_cons.mp ha with h' | h'
        · exact h'.symm
        · have h2 : b.Date ≤ a.Date := List.rel_of_sorted_cons hs' a h'
          omega
    subst hab
    have hp' : t'.Perm t := (List.perm_cons b).mp hp
    rw [sorted_perm_eq_of_strict t t' hs.of_cons hp' hs'.of_cons]

/-- A date sort leaves a list with strictly ascending dates as it is. -/
theorem byTimeSort_fixes_strict (srt : List Txn → List Txn) (h : IsByTimeSort srt)
    (l : List Txn) (hl : l.Sorted (fun a b => a.Date < b.Date)) : srt l = l :=
  sorted_perm_eq_of_strict l (srt l) hl (h l).1 (h l).2

theorem div_pow_succ (n k : Nat) : n / 2 ^ (k + 1) = n / 2 / 2 ^ k := by
  rw [Nat.pow_succ', Nat.div_div_eq_div_mul]

theorem dropBits_quot_lt : ∀ (f n : Nat), n < 2 ^ (53 + f) → n / 2 ^ dropBits f n < 2 ^ 53
  | 0, n, h => by
    have e : dropBits 0 n = 0 := rfl
    rw [e, pow_zero, Nat.div_one]
    exact h
  | f + 1, n, h => by
    by_cases hn : n < 2 ^ 53
    · have e : dropBits (f + 1) n = 0 := by simp only [dropBits, if_pos hn]
      rw [e, pow_zero, Nat.div_one]
      exact hn
    · have e : dropBits (f + 1) n = dropBits f (n / 2) + 1 := by
        simp only [dropBits, if_neg hn]
      have h2 : n / 2 < 2 ^ (53 + f) := by
        have : 2 ^ (53 + (f + 1)) = 2 * 2 ^ (53 + f) := by ring
        omega
      rw [e, div_pow_succ]
      exact dropBits_quot_lt f (n / 2) h2

theorem dropBits_quot_ge : ∀ (f n : Nat), 0 < dropBits f n → 2 ^ 52 ≤ n / 2 ^ dropBits f n
  | 0, n, h => by
    have e : dropBits 0 n = 0 := rfl
    omega
  | f + 1, n, h => by
    by_cases hn : n < 2 ^ 53
    · have e : dropBits (f + 1) n = 0 := by simp only [dropBits, if_pos hn]
      omega
    · have e : dropBits (f + 1) n = dropBits f (n / 2) + 1 := by
        simp only [dropBits, if_neg hn]
      rw [e, div_pow_succ]
      by_cases hk : 0 < dropBits f (n / 2)
      · exact dropBits_quot_ge f (n / 2) hk
      · have hk0 : dropBits f (n / 2) = 0 := by omega
        rw [hk0, pow_zero, Nat.div_one]
        have h53 : (2 : Nat) ^ 53 = 2 * 2 ^ 52 := by norm_num
        omega

theorem dropBits_mono : ∀ (f m n : Nat), m ≤ n → dropBits f m ≤ dropBits f n
  | 0, _, _, _ => Nat.le_refl _
  | f + 1, m, n, h => by
    by_cases hm : m < 2 ^ 53
    · have e : dropBits (f + 1) m = 0 := by simp only [dropBits, if_pos hm]
      rw [e]; exact Nat.zero_le _
    · have hn : ¬ n < 2 ^ 53 := by omega
      have e1 : dropBits (f + 1) m = dropBits f (m / 2) + 1 := by
        simp only [dropBits, if_neg hm]
      have e2 : dropBits (f + 1) n = dropBits f (n / 2) + 1 := by
        simp only [dropBits, if_neg hn]
      have := dropBits_mono f (m / 2) (n / 2) (Nat.div_le_div_right h)
      omega

theorem roundBits_bounds (k n : Nat) :
    n / 2 ^ k * 2 ^ k ≤ roundBits k n ∧ roundBits k n ≤ (n / 2 ^ k + 1) * 2 ^ k := by
  have hle : n / 2 ^ k * 2 ^ k ≤ (n / 2 ^ k + 1) * 2 ^ k :=
    Nat.mul_le_mul_right _ (Nat.le_succ _)
  unfold roundBits
  split_ifs
  · exact ⟨le_refl _, hle⟩
  · exact ⟨hle, le_refl _⟩
  · exact ⟨le_refl _, hle⟩
  · exact ⟨hle, le_refl _⟩

theorem roundBits_mono (k m n : Nat) (h : m ≤ n) : roundBits k m ≤ roundBits k n := by
  have hq : m / 2 ^ k ≤ n / 2 ^ k := Nat.div_le_div_right h
  rcases Nat.lt_or_ge (m / 2 ^ k) (n / 2 ^ k) with hlt | hge
  · calc roundBits k m ≤ (m / 2 ^ k + 1) * 2 ^ k := (roundBits_bounds k m).2
      _ ≤ n / 2 ^ k * 2 ^ k := Nat.mul_le_mul_right _ hlt
      _ ≤ roundBits k n := (roundBits_bounds k n).1
  · have heq : m / 2 ^ k = n / 2 ^ k := Nat.le_antisymm hq hge
    have hm := Nat.div_add_mod m (2 ^ k)
    have hn := Nat.div_add_mod n (2 ^ k)
    have hr : m % 2 ^ k ≤ n % 2 ^ k := by
      rw [heq] at hm
      omega
    unfold roundBits
    rw [heq]
    have hs : (n / 2 ^ k + 1) * 2 ^ k = n / 2 ^ k * 2 ^ k + 2 ^ k := by ring
    rw [hs]
    generalize n / 2 ^ k * 2 ^ k = X
    generalize m % 2 ^ k = rm at hr ⊢
    generalize n % 2 ^ k = rn at hr ⊢
    generalize n / 2 ^ k = q
    generalize 2 ^ k = P
    split_ifs <;> omega

/-- Below `2 ^ 53` the conversion to float64 is exact. -/
theorem float64OfNat_small (n : Nat) (h : n < 2 ^ 53) : float64OfNat n = n := by
  have hk : dropBits 11 n = 0 := by
    show dropBits (10 + 1) n = 0
    simp only [dropBits, if_pos h]
  unfold float64OfNat roundBits
  rw [hk]
  simp only [pow_zero, Nat.mod_one, Nat.div_one, Nat.mul_one]
  simp

/-- The conversion to float64 is monotone on the naturals below `2 ^ 64`. -/
theorem float64OfNat_mono (m n : Nat) (h : m ≤ n) (hn : n < 2 ^ 64) :
    float64OfNat m ≤ float64OfNat n := by
  unfold float64OfNat
  have hk := dropBits_mono 11 m n h
  rcases Nat.lt_or_ge (dropBits 11 m) (dropBits 11 n) with hlt | hge
  · have hm64 : m < 2 ^ (53 + 11) := by
      have e : (2 : Nat) ^ (53 + 11) = 2 ^ 64 := by norm_num
      rw [e]
      omega
    have hqm : m / 2 ^ dropBits 11 m < 2 ^ 53 := dropBits_quot_lt 11 m hm64
    have hqn : 2 ^ 52 ≤ n / 2 ^ dropBits 11 n := dropBits_quot_ge 11 n (by omega)
    calc roundBits (dropBits 11 m) m
        ≤ (m / 2 ^ dropBits 11 m + 1) * 2 ^ dropBits 11 m := (roundBits_bounds _ m).2
      _ ≤ 2 ^ 53 * 2 ^ dropBits 11 m := Nat.mul_le_mul_right _ hqm
      _ = 2 ^ 52 * 2 ^ (dropBits 11 m + 1) := by ring
      _ ≤ 2 ^ 52 * 2 ^ dropBits 11 n :=
          Nat.mul_le_mul_left _ (Nat.pow_le_pow_right (by norm_num) hlt)
      _ ≤ n / 2 ^ dropBits 11 n * 2 ^ dropBits 11 n := Nat.mul_le_mul_right _ hqn
      _ ≤ roundBits (dropBits 11 n) n := (roundBits_bounds _ n).1
  · have heq : dropBits 11 m = dropBits 11 n := Nat.le_antisymm hk hge
    rw [heq]
    exact roundBits_mono _ m n h

theorem wrap64_range (x : Int) : -(2 ^ 63) ≤ wrap64 x ∧ wrap64 x < 2 ^ 63 := by
  unfold wrap64
  omega

theorem wrap64_id (x : Int) (h1 : -(2 ^ 63) ≤ x) (h2 : x < 2 ^ 63) : wrap64 x = x := by
  unfold wrap64
  omega

theorem subDuration_natAbs_le (a b : Int) : (subDuration a b).natAbs ≤ 2 ^ 63 := by
  unfold subDuration
  split_ifs <;> omega

/-- A date difference of at most a window that fits an int64 passes `within`. -/
theorem within_of_le (allowed a b : Int) (h2 : allowed < 2 ^ 63)
    (h : ((a - b).natAbs : Int) ≤ allowed) : within allowed a b = true := by
  have hsub : subDuration a b = a - b := by
    unfold subDuration
    split_ifs <;> omega
  have hpos : ¬ allowed < 0 := by omega
  have hmono : float64OfNat (a - b).natAbs ≤ float64OfNat allowed.natAbs :=
    float64OfNat_mono _ _ (by omega) (by omega)
  unfold within float64OfInt
  rw [hsub, if_neg hpos]
  exact decide_eq_true (by exact_mod_cast hmono)

/-- For a window below `2 ^ 53` nanoseconds `within` is the exact comparison. -/
theorem le_of_within_small (allowed a b : Int) (h1 : -(2 ^ 63) ≤ allowed)
    (h2 : allowed < 2 ^ 53) (h : within allowed a b = true) :
    ((a - b).natAbs : Int) ≤ allowed := by
  unfold within at h
  have h := of_decide_eq_true h
  have hone : float64OfNat 1 = 1 := by decide
  have h53 : float64OfNat (2 ^ 53) = 2 ^ 53 := by decide
  have hd := subDuration_natAbs_le a b
  by_cases hneg : allowed < 0
  · exfalso
    unfold float64OfInt at h
    rw [if_pos hneg] at h
    have hge : float64OfNat 1 ≤ float64OfNat allowed.natAbs :=
      float64OfNat_mono _ _ (by omega) (by omega)
    omega
  · unfold float64OfInt at h
    rw [if_neg hneg, float64OfNat_small allowed.natAbs (by omega)] at h
    have hle : (subDuration a b).natAbs ≤ allowed.natAbs := by
      by_contra hgt
      have hlt : allowed.natAbs + 1 ≤ (subDuration a b).natAbs := by omega
      have hm := float64OfNat_mono _ _ hlt (by omega)
      by_cases hs : allowed.natAbs + 1 < 2 ^ 53
      · rw [float64OfNat_small _ hs] at hm
        omega
      · have he : allowed.natAbs + 1 = 2 ^ 53 := by omega
        rw [he, h53] at hm
        omega
    have hsub : subDuration a b = a - b := by
      unfold subDuration at hle ⊢
      split_ifs at hle ⊢ <;> omega
    rw [hsub] at hle
    omega

/-- The inner loop only reports a history entry that passes its test. -/
theorem found_sound (allowed : Int) (t : Txn) : ∀ prev : List Txn,
    found allowed t prev = true → ∃ pr ∈ prev, dupTest allowed pr t
  | [], h => by simp [found] at h
  | pr :: rest, h => by
    unfold found at h
    split at h
    · exact Bool.noConfusion h
    · split at h
      · rename_i hm
        exact ⟨pr, List.mem_cons_self _ _, hm⟩
      · obtain ⟨x, hx, hd⟩ := found_sound allowed t rest h
        exact ⟨x, List.mem_cons_of_mem _ hx, hd⟩

/-- On a date-ascending list, and for a window that fits an int64, the inner loop finds
every duplicate of `t`: the `break` on an entry dated after `t.Date + allowed` skips no
entry within the window. -/
theorem found_complete (allowed : Int) (h2 : allowed < 2 ^ 63) (t : Txn) :
    ∀ prev : List Txn,
    prev.Sorted (fun a b => a.Date ≤ b.Date) → (∃ pr ∈ prev, isDupOf allowed pr t) →
      found allowed t prev = true
  | [], _, h => by
    obtain ⟨x, hx, _⟩ := h
    simp at hx
  | pr :: rest, hs, h => by
    obtain ⟨x, hx, hd⟩ := h
    have hxd : x.Date ≤ t.Date + allowed := by
      have := hd.2.1
      omega
    unfold found
    split
    · rename_i hlate
      rcases List.mem_cons.mp hx with hx | hx
      · subst hx; omega
      · have := List.rel_of_sorted_cons hs x hx
        omega
    · split
      · rfl
      · rename_i hm
        rcases List.mem_cons.mp hx with hx | hx
        · subst hx
          exact absurd ⟨hd.1.symm, within_of_le _ _ _ h2 hd.2.1, hd.2.2⟩ hm
        · exact found_complete allowed h2 t rest hs.of_cons ⟨x, hx, hd⟩

/-- C1 (the code departs from the claim): with the window at 24 hours, the history entry
of 2024-01-01 is a duplicate of the new transaction of 2024-01-02 (same sanitized
description, exactly 24 hours apart, same absolute amount), yet `removeDuplicates` keeps
the new transaction, because the scan starts at the entry of 2024-01-05, the first one
dated strictly after the earliest new date minus 24 hours. With the later entry absent
the same duplicate is found. -/
theorem removeDuplicates_misses_duplicate_before_scan_start
    (srt : List Txn → List Txn) (hs : IsByTimeSort srt) :
    amazonJan1 ∈ [amazonJan1, netflixJan5] ∧
    isDupOf (24 * hour) amazonJan1 amazonJan2 ∧
    (removeDuplicates srt [amazonJan1, netflixJan5] 24 [amazonJan2]).2 = [amazonJan2] ∧
    (removeDuplicates srt [amazonJan1] 24 [amazonJan2]).2 = [] := by
  have e1 : srt [amazonJan1, netflixJan5] = [amazonJan1, netflixJan5] :=
    byTimeSort_fixes_strict srt hs _ (by decide)
  have e2 : srt [amazonJan2] = [amazonJan2] := byTimeSort_fixes_strict srt hs _ (by decide)
  have e3 : srt [amazonJan1] = [amazonJan1] := byTimeSort_fixes_strict srt hs _ (by decide)
  refine ⟨by decide, by decide, ?_, ?_⟩
  · unfold removeDuplicates
    rw [e1, e2]
    decide
  · unfold removeDuplicates
    rw [e3, e2]
    decide

theorem removeDuplicates_misses_duplicate_before_scan_start_witness :
    IsByTimeSort sortByTime ∧
    (removeDuplicates sortByTime [amazonJan1, netflixJan5] 24 [amazonJan2]).2
      = [amazonJan2] :=
  ⟨sortByTime_isByTimeSort,
    (removeDuplicates_misses_duplicate_before_scan_start sortByTime
      sortByTime_isByTimeSort).2.2.1⟩

/-- C2 (the code departs from the claim): with the window at 48 hours, a first run of
`removeDuplicates` drops the new "CAFE" transaction and keeps the new "GROCER" one; a
second run on that output, against the history as the first run left it, drops the
"GROCER" transaction too. The first run scans from the history entry of 2024-01-02 on and
never sees the matching entry of 2024-01-01; in the second run no history entry is dated
after the new scan bound, so the whole history is scanned. -/
theorem removeDuplicates_second_run_removes_more
    (srt : List Txn → List Txn) (hs : IsByTimeSort srt) :
    (removeDuplicates srt [grocerJan1, cafeJan2] 48 [cafeNew, grocerNew]).2 = [grocerNew] ∧
    (removeDuplicates srt
        (removeDuplicates srt [grocerJan1, cafeJan2] 48 [cafeNew, grocerNew]).1 48
        (removeDuplicates srt [grocerJan1, cafeJan2] 48 [cafeNew, grocerNew]).2).2 = [] := by
  have e1 : srt [grocerJan1, cafeJan2] = [grocerJan1, cafeJan2] :=
    byTimeSort_fixes_strict srt hs _ (by decide)
  have e2 : srt [cafeNew, grocerNew] = [cafeNew, grocerNew] :=
    byTimeSort_fixes_strict srt hs _ (by decide)
  have e3 : srt [grocerNew] = [grocerNew] := byTimeSort_fixes_strict srt hs _ (by decide)
  have r1 : removeDuplicates srt [grocerJan1, cafeJan2] 48 [cafeNew, grocerNew]
      = ([grocerJan1, cafeJan2], [grocerNew]) := by
    unfold removeDuplicates
    rw [e1, e2]
    decide
  rw [r1]
  refine ⟨rfl, ?_⟩
  unfold removeDuplicates
  rw [e1, e3]
  decide

theorem removeDuplicates_second_run_removes_more_witness :
    IsByTimeSort sortByTime ∧
    (removeDuplicates sortByTime
        (removeDuplicates sortByTime [grocerJan1, cafeJan2] 48 [cafeNew, grocerNew]).1 48
        (removeDuplicates sortByTime [grocerJan1, cafeJan2] 48 [cafeNew, grocerNew]).2).2
      = [] :=
  ⟨sortByTime_isByTimeSort,
    (removeDuplicates_second_run_removes_more sortByTime sortByTime_isByTimeSort).2⟩

/-! ## Theorems: applyToSimilarTxns -/

theorem isLetter_eq_isAlpha (c : Char) : isLetter c = c.isAlpha := by
  have h1 : ∀ a b : Char, a ≤ b ↔ a.val ≤ b.val := fun a b => Iff.rfl
  have ea : ('a' : Char).val = 97 := rfl
  have ez : ('z' : Char).val = 122 := rfl
  have eA : ('A' : Char).val = 65 := rfl
  have eZ : ('Z' : Char).val = 90 := rfl
  unfold isLetter Char.isAlpha Char.isUpper Char.isLower
  simp only [h1, ea, ez, eA, eZ]
  rw [Bool.eq_iff_iff]
  simp only [Bool.or_eq_true, Bool.and_eq_true, decide_eq_true_eq, ge_iff_le]
  tauto

/-- What `lettersOnly.ReplaceAllString(s, "")` returns is the letters-only key of the
spec. -/
theorem lettersOnlyStrip_eq_lettersKey (s : String) : lettersOnlyStrip s = lettersKey s := by
  unfold lettersOnlyStrip lettersKey
  congr 1
  apply List.filter_congr
  intro c _
  exact isLetter_eq_isAlpha c

theorem similarLoop_spec (t : Txn) : ∀ (l : List Txn) (i : Nat),
    ∃ n, n ≤ l.length ∧
      (similarLoop t (lettersOnlyStrip t.Desc) i l).1 = i + n ∧
      (similarLoop t (lettersOnlyStrip t.Desc) i l).2.length = l.length ∧
      (∀ k dst, k < n → l[k]? = some dst →
        similar t dst ∧
        (similarLoop t (lettersOnlyStrip t.Desc) i l).2[k]? = some (propagated t dst)) ∧
      (∀ dst, l[n]? = some dst → ¬ similar t dst) ∧
      (∀ k, n ≤ k → (similarLoop t (lettersOnlyStrip t.Desc) i l).2[k]? = l[k]?)
  | [], i => ⟨0, by simp [similarLoop]⟩
  | dst :: rest, i => by
    by_cases h1 : lettersOnlyStrip t.Desc ≠ lettersOnlyStrip dst.Desc
    · refine ⟨0, Nat.zero_le _, ?_⟩
      have e : similarLoop t (lettersOnlyStrip t.Desc) i (dst :: rest) = (i, dst :: rest) := by
        simp only [similarLoop, if_pos h1]
      rw [e]
      refine ⟨rfl, rfl, fun k d hk => absurd hk (Nat.not_lt_zero k), ?_, fun k _ => rfl⟩
      intro d hd hsim
      simp only [List.getElem?_cons_zero, Option.some.injEq] at hd
      subst hd
      apply h1
      rw [lettersOnlyStrip_eq_lettersKey, lettersOnlyStrip_eq_lettersKey]
      exact hsim.1
    by_cases h2 : signbit t.Cur ≠ signbit dst.Cur
    · refine ⟨0, Nat.zero_le _, ?_⟩
      have e : similarLoop t (lettersOnlyStrip t.Desc) i (dst :: rest) = (i, dst :: rest) := by
        simp only [similarLoop, if_neg h1, if_pos h2]
      rw [e]
      refine ⟨rfl, rfl, fun k d hk => absurd hk (Nat.not_lt_zero k), ?_, fun k _ => rfl⟩
      intro d hd hsim
      simp only [List.getElem?_cons_zero, Option.some.injEq] at hd
      subst hd
      exact h2 hsim.2
    · obtain ⟨n, hn, hidx, hlen, hprop, hstop, hrest⟩ := similarLoop_spec t rest (i + 1)
      have e : similarLoop t (lettersOnlyStrip t.Desc) i (dst :: rest)
          = ((similarLoop t (lettersOnlyStrip t.Desc) (i + 1) rest).1,
              propagated t dst :: (similarLoop t (lettersOnlyStrip t.Desc) (i + 1) rest).2) := by
        simp only [similarLoop, if_neg h1, if_neg h2, propagated]
      rw [e]
      refine ⟨n + 1, by simpa using hn, by simp only [hidx]; omega, by simp [hlen], ?_, ?_, ?_⟩
      · intro k d hk hd
        cases k with
        | zero =>
          simp only [List.getElem?_cons_zero, Option.some.injEq] at hd
          subst hd
          refine ⟨⟨?_, not_not.mp h2⟩, by simp⟩
          rw [← lettersOnlyStrip_eq_lettersKey, ← lettersOnlyStrip_eq_lettersKey]
          exact not_not.mp h1
        | succ k =>
          simp only [List.getElem?_cons_succ] at hd ⊢
          exact hprop k d (by omega) hd
      · intro d hd
        simp only [List.getElem?_cons_succ] at hd
        exact hstop d hd
      · intro k hk
        cases k with
        | zero => omega
        | succ k =>
          simp only [List.getElem?_cons_succ]
          exact hrest k (by omega)

/-- C3: for every batch and every start index below its length, `applyToSimilarTxns`
returns an end index `upto` with `frm < upto ≤ length`. Every transaction strictly between
`frm` and `upto` is similar to the start transaction (same letters-only key, that is the
description with every character other than an ASCII letter removed, and same sign bit
of the amount) and ends with the source account of the start transaction and `Done` set,
its other fields as before. The transaction at `upto`, if there is one, is not similar to the
start transaction. `upto = frm + 1` exactly when there is no next transaction or the next
one is not similar, and then the batch is unchanged. Every transaction at an index outside
the open interval from `frm` to `upto` is unchanged. -/
theorem applyToSimilarTxns_spec (txns : List Txn) (frm : Nat) (h : frm < txns.length) :
    ∃ upto txns' t, txns[frm]? = some t ∧
      applyToSimilarTxns txns frm = some (upto, txns') ∧
      frm < upto ∧ upto ≤ txns.length ∧ txns'.length = txns.length ∧
      (∀ j dst, frm < j → j < upto → txns[j]? = some dst →
        similar t dst ∧ txns'[j]? = some (propagated t dst)) ∧
      (∀ dst, txns[upto]? = some dst → ¬ similar t dst) ∧
      (upto = frm + 1 ↔ ∀ dst, txns[frm + 1]? = some dst → ¬ similar t dst) ∧
      (upto = frm + 1 → txns' = txns) ∧
      (∀ j, j ≤ frm ∨ upto ≤ j → txns'[j]? = txns[j]?) := by
  obtain ⟨n, hn, hidx, hlen, hprop, hstop, hrest⟩ :=
    similarLoop_spec txns[frm] (txns.drop (frm + 1)) (frm + 1)
  have ht : txns[frm]? = some txns[frm] := List.getElem?_eq_getElem h
  have hdl : (txns.drop (frm + 1)).length = txns.length - (frm + 1) := List.length_drop _ _
  have htl : (txns.take (frm + 1)).length = frm + 1 := by
    rw [List.length_take]; omega
  have hget : ∀ j, (txns.take (frm + 1) ++
      (similarLoop txns[frm] (lettersOnlyStrip txns[frm].Desc) (frm + 1)
        (txns.drop (frm + 1))).2)[j]? =
      if j < frm + 1 then txns[j]? else
        (similarLoop txns[frm] (lettersOnlyStrip txns[frm].Desc) (frm + 1)
          (txns.drop (frm + 1))).2[j - (frm + 1)]? := by
    intro j
    by_cases hj : j < frm + 1
    · rw [if_pos hj, List.getElem?_append_left (by omega), List.getElem?_take_of_lt hj]
    · rw [if_neg hj, List.getElem?_append_right (by omega), htl]
  refine ⟨(similarLoop txns[frm] (lettersOnlyStrip txns[frm].Desc) (frm + 1)
      (txns.drop (frm + 1))).1, txns.take (frm + 1) ++
      (similarLoop txns[frm] (lettersOnlyStrip txns[frm].Desc) (frm + 1)
        (txns.drop (frm + 1))).2, txns[frm], ht, ?_, ?_, ?_, ?_, ?_, ?_, ?_, ?_, ?_⟩
  · simp only [applyToSimilarTxns, ht]
  · omega
  · omega
  · rw [List.length_append, hlen, htl, hdl]; omega
  · intro j dst hj1 hj2 hd
    have hd' : (txns.drop (frm + 1))[j - (frm + 1)]? = some dst := by
      rw [List.getElem?_drop]
      rw [show frm + 1 + (j - (frm + 1)) = j by omega]
      exact hd
    obtain ⟨hs, hp⟩ := hprop (j - (frm + 1)) dst (by omega) hd'
    refine ⟨hs, ?_⟩
    rw [hget j, if_neg (by omega)]
    exact hp
  · intro dst hd
    apply hstop dst
    rw [List.getElem?_drop, ← hidx]
    exact hd
  · constructor
    · intro hu dst hd
      have hn0 : n = 0 := by omega
      apply hstop dst
      rw [List.getElem?_drop, hn0]
      exact hd
    · intro hns
      by_contra hne
      have hpos : 0 < n := by omega
      have hlt : frm + 1 < txns.length := by omega
      have hd : (txns.drop (frm + 1))[0]? = some txns[frm + 1] := by
        rw [List.getElem?_drop]
        exact List.getElem?_eq_getElem hlt
      exact hns _ (List.getElem?_eq_getElem hlt) (hprop 0 _ hpos hd).1
  · intro hu
    have hn0 : n = 0 := by omega
    apply List.ext_getElem?
    intro j
    rw [hget j]
    by_cases hj : j < frm + 1
    · rw [if_pos hj]
    · rw [if_neg hj, hrest _ (by omega), List.getElem?_drop]
      congr 1
      omega
  · intro j hj
    rw [hget j]
    by_cases hj' : j < frm + 1
    · rw [if_pos hj']
    · rw [if_neg hj', hrest _ (by omega), List.getElem?_drop]
      congr 1
      omega

theorem applyToSimilarTxns_spec_witness :
    2 < starbucksBatch.length ∧
    lettersOnlyStrip "STARBUCKS #123" = "STARBUCKS" ∧
    applyToSimilarTxns starbucksBatch 2
      = some (5, [⟨0, "RENT JAN", -90000, "Expenses:Rent", "Assets:Checking", true⟩,
                  ⟨0, "SHELL 0042", -3500, "Expenses:Car", "Assets:Checking", true⟩,
                  ⟨0, "STARBUCKS #123", -450, "Expenses:Food", "Assets:Checking", true⟩,
                  ⟨0, "STARBUCKS #456", -475, "Expenses:Food", "Assets:Checking", true⟩,
                  ⟨0, "STARBUCKS 789", -500, "Expenses:Food", "Assets:Checking", true⟩,
                  ⟨0, "STARBUCKS #123", 450, "", "Assets:Checking", false⟩]) ∧
    applyToSimilarTxns starbucksBatch 0 = some (1, starbucksBatch) ∧
    signbit (-0 : Amount) = true ∧
    applyToSimilarTxns zeroBatch 0
      = some (2, [⟨0, "STARBUCKS #1", -450, "Expenses:Food", "Assets:Checking", true⟩,
                  ⟨0, "STARBUCKS #2", -0, "Expenses:Food", "Assets:Checking", true⟩]) ∧
    ∃ upto txns' t, starbucksBatch[2]? = some t ∧
      applyToSimilarTxns starbucksBatch 2 = some (upto, txns') ∧
      2 < upto ∧ upto ≤ starbucksBatch.length ∧ txns'.length = starbucksBatch.length ∧
      (∀ j dst, 2 < j → j < upto → starbucksBatch[j]? = some dst →
        similar t dst ∧ txns'[j]? = some (propagated t dst)) ∧
      (∀ dst, starbucksBatch[upto]? = some dst → ¬ similar t dst) ∧
      (upto = 2 + 1 ↔ ∀ dst, starbucksBatch[2 + 1]? = some dst → ¬ similar t dst) ∧
      (upto = 2 + 1 → txns' = starbucksBatch) ∧
      (∀ j, j ≤ 2 ∨ upto ≤ j → txns'[j]? = starbucksBatch[j]?) :=
  ⟨by decide, by decide, by decide, by decide, by decide, by decide,
    applyToSimilarTxns_spec starbucksBatch 2 (by decide)⟩

/-! ## Theorems: categorizeByRules -/

theorem matchPatterns_total (m : String → String → Bool) (desc : String) :
    ∀ ps : List String, matchPatterns (fun p d => some (m p d)) desc ps
      = some (ps.any (fun p => m p desc))
  | [] => rfl
  | p :: ps => by
    have ih := matchPatterns_total m desc ps
    cases hm : m p desc <;> simp [matchPatterns, hm, ih]

theorem ruleMatches_iff (m : String → String → Bool) (rules : Rules) (t : Txn) :
    ruleMatches m rules t = true ↔
      ∃ r ∈ rules, ∃ p ∈ r.2, m p t.Desc = true := by
  simp [ruleMatches, List.any_eq_true]

theorem ruleMatches_perm (m : String → String → Bool) (r1 r2 : Rules) (t : Txn)
    (hp : r1.Perm r2) : ruleMatches m r1 t = ruleMatches m r2 t := by
  have h : ruleMatches m r1 t = true ↔ ruleMatches m r2 t = true := by
    rw [ruleMatches_iff, ruleMatches_iff]
    constructor
    · rintro ⟨r, hr, hx⟩
      exact ⟨r, hp.mem_iff.mp hr, hx⟩
    · rintro ⟨r, hr, hx⟩
      exact ⟨r, hp.mem_iff.mpr hr, hx⟩
  cases h1 : ruleMatches m r1 t <;> cases h2 : ruleMatches m r2 t <;> simp_all

theorem matchesCategory_total (m : String → String → Bool) (t : Txn) :
    ∀ rs : Rules, (∀ r ∈ rs, r.1.length > 0) →
      ∃ cat, matchesCategory (fun p d => some (m p d)) t rs = some cat ∧
        (ruleMatches m rs t = true →
          cat.length > 0 ∧ ∃ r ∈ rs, r.1 = cat ∧ ∃ p ∈ r.2, m p t.Desc = true) ∧
        (ruleMatches m rs t = false → cat = "")
  | [], _ => ⟨"", rfl, by simp [ruleMatches], fun _ => rfl⟩
  | (category, patterns) :: rest, hne => by
    obtain ⟨cat, hcat, hyes, hno⟩ :=
      matchesCategory_total m t rest (fun r hr => hne r (List.mem_cons_of_mem _ hr))
    cases hp : patterns.any (fun p => m p t.Desc)
    · refine ⟨cat, by simp [matchesCategory, matchPatterns_total, hp, hcat], ?_, ?_⟩
      · intro hm
        have hm' : ruleMatches m rest t = true := by
          simpa [ruleMatches, hp] using hm
        obtain ⟨hl, r, hr, hx⟩ := hyes hm'
        exact ⟨hl, r, List.mem_cons_of_mem _ hr, hx⟩
      · intro hm
        apply hno
        simpa [ruleMatches, hp] using hm
    · refine ⟨category, by simp [matchesCategory, matchPatterns_total, hp], ?_, ?_⟩
      · intro _
        refine ⟨hne (category, patterns) (List.mem_cons_self _ _),
          (category, patterns), List.mem_cons_self _ _, rfl, ?_⟩
        simpa [List.any_eq_true] using hp
      · intro hm
        simp [ruleMatches, hp] at hm

theorem rulesLoop_total (m : String → String → Bool) (rules : Rules) (iter : Nat → Rules)
    (hne : ∀ r ∈ rules, r.1.length > 0) (hiter : ∀ k, (iter k).Perm rules) :
    ∀ (txns : List Txn) (k : Nat),
      ∃ written, rulesLoop (fun p d => some (m p d)) iter k txns
          = some (txns.filter (fun t => !ruleMatches m rules t), written) ∧
        List.Forall₂ (RuleCommit m rules)
          (txns.filter (fun t => ruleMatches m rules t)) written
  | [], k => ⟨[], rfl, List.Forall₂.nil⟩
  | t :: rest, k => by
    obtain ⟨written, hloop, hall⟩ := rulesLoop_total m rules iter hne hiter rest (k + 1)
    obtain ⟨cat, hcat, hyes, hno⟩ := matchesCategory_total m t (iter k)
      (fun r hr => hne r ((hiter k).mem_iff.mp hr))
    rw [ruleMatches_perm m (iter k) rules t (hiter k)] at hyes hno
    cases hm : ruleMatches m rules t
    · have hc : cat = "" := hno hm
      subst hc
      refine ⟨written, ?_, ?_⟩
      · simp [rulesLoop, hcat, hloop, hm]
      · simpa [hm] using hall
    · obtain ⟨hl, r, hr, hrc, hx⟩ := hyes hm
      refine ⟨{ t with From := cat } :: written, ?_, ?_⟩
      · simp [rulesLoop, hcat, hloop, hm, hl]
      · simp only [List.filter_cons, hm, if_true]
        refine List.Forall₂.cons ⟨rfl, r, (hiter k).mem_iff.mp hr, hrc, hx⟩ hall

/-- C4 as stated fails: with a rule set whose category has the empty name, the
transaction "STARBUCKS #123" matches the pattern `^STARBUCKS`, yet `categorizeByRules`
commits nothing and returns the transaction as unmatched. -/
theorem categorizeByRules_empty_category_name :
    ruleMatches anchoredLiteral unnamedRules starbucks123 = true ∧
    categorizeByRules (fun p d => some (anchoredLiteral p d)) (some (fun _ => unnamedRules))
      [starbucks123] [] = some ([starbucks123], []) := by
  decide

/-- C4, amended: for every batch, every rule set whose category names are all non-empty,
every matching predicate and every order in which the categories are ranged over for each
transaction, `categorizeByRules` returns; the returned list is the batch restricted to the
transactions that match no pattern of any category, unchanged and in their original order;
the commit log grows by exactly one record for each matching transaction, in order, and
the record is that transaction with its source account set to a category of the rule set
that has a pattern matching it. -/
theorem categorizeByRules_partition (m : String → String → Bool) (rules : Rules)
    (iter : Nat → Rules) (txns db : List Txn)
    (hne : ∀ r ∈ rules, r.1.length > 0) (hiter : ∀ k, (iter k).Perm rules) :
    ∃ written,
      categorizeByRules (fun p d => some (m p d)) (some iter) txns db
        = some (txns.filter (fun t => !ruleMatches m rules t), db ++ written) ∧
      List.Forall₂ (RuleCommit m rules)
        (txns.filter (fun t => ruleMatches m rules t)) written := by
  obtain ⟨written, hloop, hall⟩ := rulesLoop_total m rules iter hne hiter txns 0
  exact ⟨written, by simp [categorizeByRules, hloop], hall⟩

theorem categorizeByRules_partition_witness :
    (∀ r ∈ foodRules, r.1.length > 0) ∧ (∀ k : Nat, ((fun _ => foodRules) k).Perm foodRules) ∧
    categorizeByRules (fun p d => some (anchoredLiteral p d)) (some (fun _ => foodRules))
      [starbucks123, starbucks456] []
      = some ([], [{ starbucks123 with From := "Expenses:Food" },
          { starbucks456 with From := "Expenses:Food" }]) ∧
    ∃ written,
      categorizeByRules (fun p d => some (anchoredLiteral p d)) (some (fun _ => foodRules))
          [starbucks123, starbucks456] []
        = some ([starbucks123, starbucks456].filter
            (fun t => !ruleMatches anchoredLiteral foodRules t), [] ++ written) ∧
      List.Forall₂ (RuleCommit anchoredLiteral foodRules)
        ([starbucks123, starbucks456].filter
          (fun t => ruleMatches anchoredLiteral foodRules t)) written :=
  ⟨by decide, fun _ => List.Perm.refl _, by decide,
    categorizeByRules_partition anchoredLiteral foodRules (fun _ => foodRules)
      [starbucks123, starbucks456] [] (by decide) (fun _ => List.Perm.refl _)⟩

/-! ## Theorems: printAndGetResult -/

theorem keystroke_next (ks : Shortcuts) (st st' : SelState) (ch : Char)
    (h : keystroke ks st ch = .next st') :
    st'.db = st.db ∧ st'.t.To = st.t.To ∧ st'.t.Done = st.t.Done ∧ st'.repeated = true := by
  unfold keystroke at h
  split at h
  · exact Step.noConfusion h
  · split at h
    · split at h
      · exact Step.noConfusion h
      · split at h
        · injection h with h
          subst h
          exact ⟨rfl, rfl, rfl, rfl⟩
        · exact Step.noConfusion h
    · exact Step.noConfusion h

theorem afterKeys_frame (ks : Shortcuts) : ∀ (pre : List Char) (st st' : SelState),
    afterKeys ks st pre = some st' →
      st'.db = st.db ∧ st'.t.To = st.t.To ∧ st'.t.Done = st.t.Done ∧
        (pre ≠ [] → st'.repeated = true) ∧ (pre = [] → st' = st)
  | [], st, st', h => by
    simp only [afterKeys, Option.some.injEq] at h
    subst h
    refine ⟨rfl, rfl, rfl, ?_, ?_⟩
    · intro hne
      exact absurd rfl hne
    · intro _
      rfl
  | ch :: pre, st, st', h => by
    simp only [afterKeys] at h
    cases hk : keystroke ks st ch with
    | ret res t db => rw [hk] at h; exact Option.noConfusion h
    | next st1 =>
      rw [hk] at h
      obtain ⟨h1, h2, h3, h4⟩ := keystroke_next ks st st1 ch hk
      obtain ⟨g1, g2, g3, g4, g5⟩ := afterKeys_frame ks pre st1 st' h
      refine ⟨g1.trans h1, g2.trans h2, g3.trans h3, fun _ => ?_, fun hn => absurd hn (by simp)⟩
      cases pre with
      | nil => rw [g5 rfl]; exact h4
      | cons c cs => exact g4 (by simp)

theorem selectorLoop_append (ks : Shortcuts) : ∀ (pre : List Char) (st st' : SelState)
    (rest : List Char), afterKeys ks st pre = some st' →
      selectorLoop ks st (pre ++ rest) = selectorLoop ks st' rest
  | [], st, st', rest, h => by
    simp only [afterKeys, Option.some.injEq] at h
    subst h
    rfl
  | ch :: pre, st, st', rest, h => by
    simp only [afterKeys] at h
    cases hk : keystroke ks st ch with
    | ret res t db => rw [hk] at h; exact Option.noConfusion h
    | next st1 =>
      rw [hk] at h
      simp only [List.cons_append, selectorLoop, hk]
      exact selectorLoop_append ks pre st1 st' rest h

/-- C6: in one run of `printAndGetResult`, let `st` be the local state after the bytes
`pre`, each of which entered a nested context. If both accounts of the transaction are
non-empty, the newline byte ends the run: exactly one record, the transaction, is appended
to the commit log, the transaction is marked `Done` with its other fields as they were,
and the result is `1.0` when `pre` is empty and `0` when it is not. If an account is
empty, the newline byte appends nothing to the commit log and leaves `Done` as it was,
whether the run returns on it or loops. -/
theorem printAndGetResult_commit_key (ks : Shortcuts) (t : Txn) (db : List Txn)
    (pre rest : List Char) (st : SelState)
    (hpre : afterKeys ks (initState t db) pre = some st) :
    (st.t.To.length > 0 ∧ st.t.From.length > 0 →
      printAndGetResult ks t db (pre ++ Char.ofNat 10 :: rest)
        = some (if pre = [] then resAdvance else resStay, { st.t with Done := true },
            db ++ [st.t], rest)) ∧
    (¬ (st.t.To.length > 0 ∧ st.t.From.length > 0) →
      (∀ res t' db', keystroke ks st (Char.ofNat 10) = .ret res t' db' →
        db' = db ∧ t'.Done = t.Done) ∧
      (∀ st', keystroke ks st (Char.ofNat 10) = .next st' →
        st'.db = db ∧ st'.t.Done = t.Done)) := by
  obtain ⟨hdb, _, hdone, hrep, hnil⟩ := afterKeys_frame ks pre _ st hpre
  have hdb' : st.db = db := hdb
  have hdone' : st.t.Done = t.Done := hdone
  constructor
  · intro hacc
    have hfire : commitFires (Char.ofNat 10) st.t = true := by
      unfold commitFires
      exact decide_eq_true ⟨rfl, hacc⟩
    have hk : keystroke ks st (Char.ofNat 10)
        = .ret (if st.repeated then resStay else resAdvance) { st.t with Done := true }
            (st.db ++ [st.t]) := by
      simp only [keystroke, hfire, if_true]
    unfold printAndGetResult
    rw [selectorLoop_append ks pre _ st _ hpre]
    simp only [selectorLoop, hk, hdb']
    by_cases hp : pre = []
    · rw [hnil hp]
      simp [hp, initState]
    · simp [hp, hrep hp]
  · intro hacc
    have hfire : commitFires (Char.ofNat 10) st.t = false := by
      simp only [commitFires, decide_eq_false_iff_not]
      exact fun h => hacc h.2
    constructor
    · intro res t' db' hk
      unfold keystroke at hk
      rw [hfire] at hk
      simp only [Bool.false_eq_true, if_false] at hk
      split at hk
      · split at hk
        · injection hk with _ h2 h3
          subst h2 h3
          exact ⟨hdb', hdone'⟩
        · split at hk
          · exact Step.noConfusion hk
          · injection hk with _ h2 h3
            subst h2 h3
            exact ⟨hdb', hdone'⟩
      · injection hk with _ h2 h3
        subst h2 h3
        exact ⟨hdb', hdone'⟩
    · intro st' hk
      obtain ⟨h1, _, h3, _⟩ := keystroke_next ks st st' _ hk
      exact ⟨h1.trans hdb', h3.trans hdone'⟩

theorem printAndGetResult_commit_key_witness :
    afterKeys demoKeys (initState taxi []) ['e']
      = some (labelState taxi [] ["Expenses"]) ∧
    printAndGetResult demoKeys taxi [] (['e'] ++ Char.ofNat 10 :: ['x'])
      = some (resStay, { assignAccount taxi "Expenses" with Done := true },
          [assignAccount taxi "Expenses"], ['x']) ∧
    printAndGetResult demoKeys (assignAccount taxi "Expenses") []
        ([] ++ Char.ofNat 10 :: ['x'])
      = some (resAdvance, { assignAccount taxi "Expenses" with Done := true },
          [assignAccount taxi "Expenses"], ['x']) :=
  ⟨by decide,
    (printAndGetResult_commit_key demoKeys taxi [] ['e'] ['x']
      (labelState taxi [] ["Expenses"]) (by decide)).1 (by decide),
    (printAndGetResult_commit_key demoKeys (assignAccount taxi "Expenses") [] [] ['x']
      (initState (assignAccount taxi "Expenses") []) (by decide)).1 (by decide)⟩

theorem labelState_concat (t : Txn) (db : List Txn) (ls : List String) (l : String) :
    labelState t db (ls ++ [l])
      = ⟨l, true, ls ++ [l], assignAccount t (String.intercalate ":" (ls ++ [l])), db⟩ := by
  cases ls with
  | nil => rfl
  | cons a as =>
    have e : (a :: (as ++ [l])).getLastD "default" = l := by
      rw [← List.cons_append, List.getLastD_eq_getLast?, List.getLast?_concat]
      rfl
    simp only [labelState, List.cons_append, e]
    rfl

theorem labelState_fields (t : Txn) (db : List Txn) (ls : List String) :
    (labelState t db ls).category = ls ∧ (labelState t db ls).db = db ∧
      ∀ a, assignAccount (labelState t db ls).t a = assignAccount t a := by
  cases ls with
  | nil => exact ⟨rfl, rfl, fun _ => rfl⟩
  | cons a as => exact ⟨rfl, rfl, fun _ => rfl⟩

theorem keystroke_labelKey (ks : Shortcuts) (t : Txn) (db : List Txn) (ls : List String)
    (ch : Char) (l : String) (h : labelKey ks (labelState t db ls) ch l) :
    keystroke ks (labelState t db ls) ch =
      if ks.HasLabel l = true then .next (labelState t db (ls ++ [l]))
      else .ret resStay (assignAccount t (String.intercalate ":" (ls ++ [l]))) db := by
  obtain ⟨h1, h2, h3⟩ := h
  obtain ⟨g1, g2, g3⟩ := labelState_fields t db ls
  rw [labelState_concat]
  simp only [keystroke, h1, h2, h3, g1, g2, g3, Bool.false_eq_true, if_false]

theorem afterKeys_labelPath (ks : Shortcuts) (t : Txn) (db : List Txn) :
    ∀ (path : List (Char × String)) (ls : List String), LabelPath ks t db ls path →
      afterKeys ks (labelState t db ls) (path.map Prod.fst)
        = some (labelState t db (ls ++ path.map Prod.snd))
  | [], ls, _ => by simp [afterKeys]
  | (ch, l) :: rest, ls, h => by
    obtain ⟨hk, hl, hrest⟩ := h
    have ih := afterKeys_labelPath ks t db rest (ls ++ [l]) hrest
    simp only [List.map_cons, afterKeys, keystroke_labelKey ks t db ls ch l hk, hl, if_true]
    rw [ih]
    simp

/-- C7: for every shortcut menu and every run of `printAndGetResult` that reads `k ≥ 1`
category-label keystrokes selecting `l1 .. lk` (none with the commit condition true, the
first `k - 1` each defining a nested context), after the `k`-th keystroke the transaction
is the one of the entry with `From` set to `l1 .. lk` joined with `:` (whatever the sign
of the amount), `To`, `Done` and the other fields as on entry, and the commit log is as
on entry. If `lk` defines no nested context the run returns `0`; otherwise the run has
not returned and reads the next byte in the context `lk`. -/
theorem printAndGetResult_label_keys (ks : Shortcuts) (t : Txn) (db : List Txn)
    (path : List (Char × String)) (ch : Char) (l : String) (rest : List Char)
    (hpath : LabelPath ks t db [] path)
    (hkey : labelKey ks (labelState t db (path.map Prod.snd)) ch l) :
    (ks.HasLabel l = false →
      printAndGetResult ks t db (path.map Prod.fst ++ ch :: rest)
        = some (resStay,
            { Date := t.Date, Desc := t.Desc, Cur := t.Cur,
              From := String.intercalate ":" (path.map Prod.snd ++ [l]),
              To := t.To, Done := t.Done }, db, rest)) ∧
    (ks.HasLabel l = true →
      afterKeys ks (initState t db) (path.map Prod.fst ++ [ch])
        = some ⟨l, true, path.map Prod.snd ++ [l],
            { Date := t.Date, Desc := t.Desc, Cur := t.Cur,
              From := String.intercalate ":" (path.map Prod.snd ++ [l]),
              To := t.To, Done := t.Done }, db⟩ ∧
      printAndGetResult ks t db (path.map Prod.fst ++ ch :: rest)
        = selectorLoop ks ⟨l, true, path.map Prod.snd ++ [l],
            { Date := t.Date, Desc := t.Desc, Cur := t.Cur,
              From := String.intercalate ":" (path.map Prod.snd ++ [l]),
              To := t.To, Done := t.Done }, db⟩ rest) := by
  have hrec : ∀ a : String, assignAccount t a
      = { Date := t.Date, Desc := t.Desc, Cur := t.Cur, From := a, To := t.To,
          Done := t.Done } := fun _ => rfl
  have hp : afterKeys ks (initState t db) (path.map Prod.fst)
      = some (labelState t db (path.map Prod.snd)) := by
    have := afterKeys_labelPath ks t db path [] hpath
    simpa [labelState] using this
  have hstep := keystroke_labelKey ks t db (path.map Prod.snd) ch l hkey
  have hrun : printAndGetResult ks t db (path.map Prod.fst ++ ch :: rest)
      = selectorLoop ks (labelState t db (path.map Prod.snd)) (ch :: rest) := by
    unfold printAndGetResult
    exact selectorLoop_append ks _ _ _ _ hp
  constructor
  · intro hl
    rw [hrun, ← hrec]
    simp only [selectorLoop, hstep, hl, Bool.false_eq_true, if_false]
  · intro hl
    have hnext : afterKeys ks (labelState t db (path.map Prod.snd)) [ch]
        = some (labelState t db (path.map Prod.snd ++ [l])) := by
      simp only [afterKeys, hstep, hl, if_true]
    have hall : afterKeys ks (initState t db) (path.map Prod.fst ++ [ch])
        = some (labelState t db (path.map Prod.snd ++ [l])) := by
      clear hrun hstep
      revert hp hnext
      generalize initState t db = s0
      generalize labelState t db (path.map Prod.snd) = s1
      generalize labelState t db (path.map Prod.snd ++ [l]) = s2
      generalize path.map Prod.fst = pre
      intro hp hnext
      induction pre generalizing s0 with
      | nil =>
        simp only [afterKeys, Option.some.injEq] at hp
        subst hp
        exact hnext
      | cons c cs ih =>
        simp only [List.cons_append, afterKeys] at hp ⊢
        cases hk : keystroke ks s0 c with
        | ret res t db => rw [hk] at hp; exact Option.noConfusion hp
        | next s =>
          rw [hk] at hp
          exact ih s hp
    rw [labelState_concat] at hall
    rw [← hrec]
    refine ⟨hall, ?_⟩
    rw [hrun]
    simp only [selectorLoop, hstep, hl, if_true, labelState_concat]

theorem printAndGetResult_label_keys_witness :
    LabelPath demoKeys taxi [] [] [('e', "Expenses")] ∧
    labelKey demoKeys (labelState taxi [] ["Expenses"]) 't' "Travel" ∧
    demoKeys.HasLabel "Travel" = false ∧
    printAndGetResult demoKeys taxi [] (['e'] ++ 't' :: ['x'])
      = some (resStay, ⟨0, "TAXI 17", -1800, "Expenses:Travel", "Assets:Checking", false⟩,
          [], ['x']) ∧
    printAndGetResult demoKeys refund [] (['e'] ++ 't' :: ['x'])
      = some (resStay, ⟨0, "TAXI REFUND", 1800, "Expenses:Travel", "Assets:Checking", false⟩,
          [], ['x']) ∧
    afterKeys demoKeys (initState taxi []) ([] ++ ['e'])
      = some ⟨"Expenses", true, ["Expenses"],
          ⟨0, "TAXI 17", -1800, "Expenses", "Assets:Checking", false⟩, []⟩ :=
  ⟨by decide, by decide, by decide,
    (printAndGetResult_label_keys demoKeys taxi [] [('e', "Expenses")] 't' "Travel" ['x']
      (by decide) (by decide)).1 (by decide),
    (printAndGetResult_label_keys demoKeys refund [] [('e', "Expenses")] 't' "Travel" ['x']
      (by decide) (by decide)).1 (by decide),
    ((printAndGetResult_label_keys demoKeys taxi [] [] 'e' "Expenses" []
      (by decide) (by decide)).2 (by decide)).1⟩

/-- C9: for every active context (every local state of a run of `printAndGetResult`),
every transaction and every byte for which the commit condition is false and which the
active context does not map, the run returns `0` on that byte, with the commit log and
every field of the transaction as they were before the byte. -/
theorem printAndGetResult_unmapped_key (ks : Shortcuts) (st : SelState) (ch : Char)
    (rest : List Char) (hc : commitFires ch st.t = false)
    (hm : ks.MapsTo ch st.label = none) :
    keystroke ks st ch = .ret resStay st.t st.db ∧
    selectorLoop ks st (ch :: rest) = some (resStay, st.t, st.db, rest) := by
  have hk : keystroke ks st ch = .ret resStay st.t st.db := by
    simp only [keystroke, hc, hm, Bool.false_eq_true, if_false]
  exact ⟨hk, by simp only [selectorLoop, hk]⟩

theorem printAndGetResult_unmapped_key_witness :
    commitFires 'z' taxi = false ∧ demoKeys.MapsTo 'z' "default" = none ∧
    printAndGetResult demoKeys taxi [] ['z', 'e'] = some (resStay, taxi, [], ['e']) :=
  ⟨by decide, by decide,
    (printAndGetResult_unmapped_key demoKeys (initState taxi []) 'z' ['e']
      (by decide) (by decide)).2⟩

/-! ## Theorems: the review loop -/

/-- C5 (the code departs from the claim): two runs of `showAndCategorizeTxns` that start
from a batch satisfying the completeness invariant and end with a transaction that is
`Done` with an empty account. In the first, the user accepts the first transaction with
the newline byte and the propagation marks the similar second transaction `Done` although
its destination account is empty. In the second, the user asks for show-all on a
transaction that is already `Done`, the fuzzy resolver returns no account, and the source
account is overwritten with the empty string while `Done` stays set. -/
theorem review_breaks_completeness :
    (Complete coffeeBatch ∧
      showAndCategorizeTxns demoEnv 3 coffeeBatch [] ['y', Char.ofNat 10, 'x', 'q']
        = some ([⟨0, "STARBUCKS #1", -450, "Expenses:Food", "Assets:Checking", true⟩,
                 ⟨0, "STARBUCKS #2", -475, "Expenses:Food", "", true⟩],
                [⟨0, "STARBUCKS #1", -450, "Expenses:Food", "Assets:Checking", false⟩,
                 ⟨0, "STARBUCKS #2", -475, "Expenses:Food", "", true⟩], []) ∧
      ¬ Complete [⟨0, "STARBUCKS #1", -450, "Expenses:Food", "Assets:Checking", true⟩,
                  ⟨0, "STARBUCKS #2", -475, "Expenses:Food", "", true⟩]) ∧
    (Complete doneBatch ∧
      showAndCategorizeTxns demoEnv 3 doneBatch [] ['y', 'a', 'q', 'q']
        = some ([⟨0, "STARBUCKS #1", -450, "", "Assets:Checking", true⟩], [], []) ∧
      ¬ Complete [⟨0, "STARBUCKS #1", -450, "", "Assets:Checking", true⟩]) := by
  decide

theorem getElem?_of_walkGuard (w : Walk) (hg : walkGuard w = true) :
    ∃ t, w.txns[w.i.toNat]? = some t := by
  simp only [walkGuard, decide_eq_true_eq] at hg
  have h : w.i.toNat < w.txns.length := by omega
  exact ⟨w.txns[w.i.toNat], List.getElem?_eq_getElem h⟩

/-- C10: for every batch and every index `i` at which the walk of `showAndCategorizeTxns`
runs an iteration, when `categorizeTxn` returns `-1.0` for the transaction at `i` the
iteration ends with the index at `i - 1`; the commit log and the input are as
`categorizeTxn` left them, and the batch is as before except that index `i` holds the
transaction as `categorizeTxn` left it. -/
theorem walkStep_back (env : Collab) (fuel : Nat) (w : Walk) (hg : walkGuard w = true) :
    ∃ t, w.txns[w.i.toNat]? = some t ∧
      ∀ t' db' rest, categorizeTxn env fuel t w.db w.input = some (resBack, t', db', rest) →
        walkStep env fuel w = some ⟨w.txns.set w.i.toNat t', w.i - 1, db', rest⟩ := by
  obtain ⟨t, ht⟩ := getElem?_of_walkGuard w hg
  refine ⟨t, ht, ?_⟩
  intro t' db' rest hsel
  have h1 : (resBack = resAdvance) = False := by decide
  have h2 : w.i + goInt resBack = w.i - 1 := by
    have : goInt resBack = -1 := by decide
    rw [this]
    rfl
  simp only [walkStep, ht, hsel, h1, if_false, h2]

theorem walkStep_back_witness :
    walkGuard ⟨coffeeBatch, 1, [], ['b', 'q']⟩ = true ∧
    categorizeTxn demoEnv 1 ⟨0, "STARBUCKS #2", -475, "", "", false⟩ [] ['b', 'q']
      = some (resBack, ⟨0, "STARBUCKS #2", -475, "", "", false⟩, [], ['q']) ∧
    walkStep demoEnv 1 ⟨coffeeBatch, 1, [], ['b', 'q']⟩
      = some ⟨coffeeBatch, 0, [], ['q']⟩ := by
  refine ⟨by decide, by decide, ?_⟩
  obtain ⟨t, ht, h⟩ := walkStep_back demoEnv 1 ⟨coffeeBatch, 1, [], ['b', 'q']⟩ (by decide)
  have e : t = ⟨0, "STARBUCKS #2", -475, "", "", false⟩ := by
    have : (some t : Option Txn) = some ⟨0, "STARBUCKS #2", -475, "", "", false⟩ :=
      ht.symm.trans (by decide)
    exact Option.some.inj this
  subst e
  exact h _ _ _ (by decide)

/-! ## Theorems: the index walk -/

/-- A return of the selector body either is the commit branch or leaves the commit log
and `Done` as they were. -/
theorem keystroke_ret (ks : Shortcuts) (st : SelState) (ch : Char) (res : Int) (t' : Txn)
    (db' : List Txn) (h : keystroke ks st ch = .ret res t' db') :
    (res = resStay ∨ res = resAdvance) ∨ (db' = st.db ∧ t'.Done = st.t.Done) := by
  unfold keystroke at h
  split at h
  · injection h with h1 _ _
    left
    by_cases hr : st.repeated = true
    · left; rw [← h1, if_pos hr]
    · right; rw [← h1, if_neg hr]
  · right
    split at h
    · split at h
      · injection h with _ h2 h3
        subst h2 h3
        exact ⟨rfl, rfl⟩
      · split at h
        · exact Step.noConfusion h
        · injection h with _ h2 h3
          subst h2 h3
          exact ⟨rfl, rfl⟩
    · injection h with _ h2 h3
      subst h2 h3
      exact ⟨rfl, rfl⟩

theorem selectorLoop_no_commit (ks : Shortcuts) : ∀ (input : List Char) (st : SelState)
    (res : Int) (t' : Txn) (db' : List Txn) (rest : List Char),
    selectorLoop ks st input = some (res, t', db', rest) →
      res ≠ resStay → res ≠ resAdvance → db' = st.db ∧ t'.Done = st.t.Done
  | [], st, res, t', db', rest, h, _, _ => by simp [selectorLoop] at h
  | ch :: input, st, res, t', db', rest, h, h0, h1 => by
    simp only [selectorLoop] at h
    cases hk : keystroke ks st ch with
    | ret r t1 db1 =>
      rw [hk] at h
      simp only [Option.some.injEq, Prod.mk.injEq] at h
      obtain ⟨e1, e2, e3, _⟩ := h
      subst e1 e2 e3
      rcases keystroke_ret ks st ch _ _ _ hk with hr | hr
      · rcases hr with hr | hr
        · exact absurd hr h0
        · exact absurd hr h1
      · exact hr
    | next st1 =>
      rw [hk] at h
      obtain ⟨g1, _, g3, _⟩ := keystroke_next ks st st1 ch hk
      obtain ⟨i1, i2⟩ := selectorLoop_no_commit ks input st1 res t' db' rest h h0 h1
      exact ⟨i1.trans g1, i2.trans g3⟩

/-- A run of `categorizeTxn` whose result is neither `0` nor `1.0` leaves the commit log
and `Done` as they were. -/
theorem categorizeTxn_no_commit (env : Collab) : ∀ (fuel : Nat) (t : Txn) (db : List Txn)
    (input : List Char) (res : Int) (t' : Txn) (db' : List Txn) (rest : List Char),
    categorizeTxn env fuel t db input = some (res, t', db', rest) →
      res ≠ resStay → res ≠ resAdvance → db' = db ∧ t'.Done = t.Done
  | 0, t, db, input, res, t', db', rest, h, _, _ => by simp [categorizeTxn] at h
  | fuel + 1, t, db, input, res, t', db', rest, h, h0, h1 => by
    simp only [categorizeTxn] at h
    cases hp : printAndGetResult (env.shortcuts (env.topHits t.Desc)) t db input with
    | none => rw [hp] at h; exact Option.noConfusion h
    | some r =>
      obtain ⟨r0, t1, db1, rest1⟩ := r
      rw [hp] at h
      simp only at h
      by_cases hmax : r0 = MaxFloat32
      · rw [if_pos hmax] at h
        simp only [Option.some.injEq, Prod.mk.injEq] at h
        obtain ⟨e1, _, _, _⟩ := h
        exfalso
        unfold fuzzyAndGetResult at e1
        simp only at e1
        split at e1
        · exact h1 e1.symm
        · exact h0 e1.symm
      · rw [if_neg hmax] at h
        by_cases hact : r0 = SamePayeeAction ∨ r0 = SameAmountAction
        · rw [if_pos hact] at h
          have hs : db1 = db ∧ t1.Done = t.Done := by
            apply selectorLoop_no_commit _ _ _ _ _ _ _ hp
            · rcases hact with e | e <;> rw [e] <;> decide
            · rcases hact with e | e <;> rw [e] <;> decide
          cases he : execAction rest1 with
          | none => rw [he] at h; exact Option.noConfusion h
          | some rest2 =>
            rw [he] at h
            obtain ⟨i1, i2⟩ := categorizeTxn_no_commit env fuel t1 db1 rest2 res t' db' rest h h0 h1
            exact ⟨i1.trans hs.1, i2.trans hs.2⟩
        · rw [if_neg hact] at h
          simp only [Option.some.injEq, Prod.mk.injEq] at h
          obtain ⟨e1, e2, e3, _⟩ := h
          subst e1 e2 e3
          exact selectorLoop_no_commit _ _ _ _ _ _ _ hp h0 h1

/-- The `else` branch of the walk: any result other than `1.0` moves the index by
`int(res)` and touches nothing else. -/
theorem walkStep_other (env : Collab) (fuel : Nat) (w : Walk) (t t' : Txn) (res : Int)
    (db' : List Txn) (rest : List Char) (ht : w.txns[w.i.toNat]? = some t)
    (hsel : categorizeTxn env fuel t w.db w.input = some (res, t', db', rest))
    (hres : res ≠ resAdvance) :
    walkStep env fuel w = some ⟨w.txns.set w.i.toNat t', w.i + goInt res, db', rest⟩ := by
  simp only [walkStep, ht, hsel, if_neg hres]

/-- C12: for every batch and every index `i` at which the walk runs an iteration, when
`categorizeTxn` returns `1.1` (skip) the iteration ends with the index at `i + 1`; the
commit log is as on entry and `Done` of the transaction is as on entry, and the batch is
as before at every index other than `i`: the propagation is not run. -/
theorem walkStep_skip (env : Collab) (fuel : Nat) (w : Walk) (hg : walkGuard w = true) :
    ∃ t, w.txns[w.i.toNat]? = some t ∧
      ∀ t' db' rest, categorizeTxn env fuel t w.db w.input = some (resSkip, t', db', rest) →
        walkStep env fuel w = some ⟨w.txns.set w.i.toNat t', w.i + 1, db', rest⟩ ∧
        db' = w.db ∧ t'.Done = t.Done ∧
        ∀ j, j ≠ w.i.toNat → (w.txns.set w.i.toNat t')[j]? = w.txns[j]? := by
  obtain ⟨t, ht⟩ := getElem?_of_walkGuard w hg
  refine ⟨t, ht, ?_⟩
  intro t' db' rest hsel
  have hstep := walkStep_other env fuel w t t' resSkip db' rest ht hsel (by decide)
  have hgo : goInt resSkip = 1 := by decide
  rw [hgo] at hstep
  obtain ⟨h1, h2⟩ := categorizeTxn_no_commit env fuel t w.db w.input resSkip t' db' rest hsel
    (by decide) (by decide)
  refine ⟨hstep, h1, h2, ?_⟩
  intro j hj
  exact List.getElem?_set_ne (Ne.symm hj)

theorem walkStep_skip_witness :
    walkGuard ⟨coffeeBatch, 0, [], ['s', 'q']⟩ = true ∧
    categorizeTxn skipEnv 1 ⟨0, "STARBUCKS #1", -450, "", "Assets:Checking", false⟩ []
        ['s', 'q']
      = some (resSkip, ⟨0, "STARBUCKS #1", -450, "", "Assets:Checking", false⟩, [], ['q']) ∧
    walkStep skipEnv 1 ⟨coffeeBatch, 0, [], ['s', 'q']⟩
      = some ⟨coffeeBatch, 1, [], ['q']⟩ := by
  refine ⟨by decide, by decide, ?_⟩
  obtain ⟨t, ht, h⟩ := walkStep_skip skipEnv 1 ⟨coffeeBatch, 0, [], ['s', 'q']⟩ (by decide)
  have e : t = ⟨0, "STARBUCKS #1", -450, "", "Assets:Checking", false⟩ := by
    have : (some t : Option Txn) = some ⟨0, "STARBUCKS #1", -450, "", "Assets:Checking", false⟩ :=
      ht.symm.trans (by decide)
    exact Option.some.inj this
  subst e
  exact (h _ _ _ (by decide)).1

/-- What the propagation from a valid index returns: an end index above the start and at
most the length, a batch of the same length, and between the two indices the former
transactions with the source account of the start transaction and `Done` set. -/
theorem applyToSimilarTxns_range (txns : List Txn) (frm : Nat) (t : Txn)
    (ht : txns[frm]? = some t) :
    ∃ upto txns', applyToSimilarTxns txns frm = some (upto, txns') ∧
      frm < upto ∧ upto ≤ txns.length ∧ txns'.length = txns.length ∧
      (upto = frm + 1 → txns' = txns) ∧
      ∀ j c, frm < j → j < upto → txns'[j]? = some c →
        ∃ dst, txns[j]? = some dst ∧ c = propagated t dst := by
  have h : frm < txns.length := by
    by_contra hn
    rw [List.getElem?_eq_none (by omega)] at ht
    exact Option.noConfusion ht
  obtain ⟨n, hn, hidx, hlen, hprop, _, hrest⟩ :=
    similarLoop_spec t (txns.drop (frm + 1)) (frm + 1)
  have hdl : (txns.drop (frm + 1)).length = txns.length - (frm + 1) := List.length_drop _ _
  have htl : (txns.take (frm + 1)).length = frm + 1 := by
    rw [List.length_take]; omega
  refine ⟨(similarLoop t (lettersOnlyStrip t.Desc) (frm + 1) (txns.drop (frm + 1))).1,
    txns.take (frm + 1) ++
      (similarLoop t (lettersOnlyStrip t.Desc) (frm + 1) (txns.drop (frm + 1))).2,
    ?_, ?_, ?_, ?_, ?_, ?_⟩
  · simp only [applyToSimilarTxns, ht]
  · omega
  · omega
  · rw [List.length_append, hlen, htl, hdl]; omega
  · intro hu
    have hn0 : n = 0 := by omega
    apply List.ext_getElem?
    intro j
    by_cases hj : j < frm + 1
    · rw [List.getElem?_append_left (by omega), List.getElem?_take_of_lt hj]
    · rw [List.getElem?_append_right (by omega), htl, hrest _ (by omega),
        List.getElem?_drop]
      congr 1
      omega
  · intro j c hj1 hj2 hc
    rw [List.getElem?_append_right (by omega), htl] at hc
    have hjl : j < txns.length := by omega
    have hd : (txns.drop (frm + 1))[j - (frm + 1)]? = some txns[j] := by
      rw [List.getElem?_drop, show frm + 1 + (j - (frm + 1)) = j by omega]
      exact List.getElem?_eq_getElem hjl
    obtain ⟨_, hp⟩ := hprop (j - (frm + 1)) txns[j] (by omega) hd
    rw [hp] at hc
    exact ⟨txns[j], List.getElem?_eq_getElem hjl, (Option.some.inj hc).symm⟩

/-- C13: for every batch and every index `i` at which the walk runs an iteration, when
`categorizeTxn` returns `1.0` the iteration runs `applyToSimilarTxns` from `i` on the
batch as `categorizeTxn` left it, getting `upto`; the commit log grows by exactly the
transactions at the indices `i + 1 .. upto - 1` of the propagated batch, once each and in
order, each with the source account of the transaction at `i` and `Done` set; the next
index is `upto`. When `upto = i + 1` nothing is committed and no byte is read. -/
theorem walkStep_advance (env : Collab) (fuel : Nat) (w : Walk) (hg : walkGuard w = true) :
    ∃ t, w.txns[w.i.toNat]? = some t ∧
      ∀ t' db' rest, categorizeTxn env fuel t w.db w.input = some (resAdvance, t', db', rest) →
        ∃ upto txns',
          applyToSimilarTxns (w.txns.set w.i.toNat t') w.i.toNat = some (upto, txns') ∧
          walkStep env fuel w
            = some ⟨txns', upto, db' ++ (txns'.take upto).drop (w.i.toNat + 1),
                if upto = w.i.toNat + 1 then rest else (readByte rest).2⟩ ∧
          ((txns'.take upto).drop (w.i.toNat + 1)).length = upto - (w.i.toNat + 1) ∧
          (∀ k, k < upto - (w.i.toNat + 1) →
            ((txns'.take upto).drop (w.i.toNat + 1))[k]? = txns'[w.i.toNat + 1 + k]?) ∧
          (∀ c ∈ (txns'.take upto).drop (w.i.toNat + 1), c.From = t'.From ∧ c.Done = true) ∧
          (upto = w.i.toNat + 1 → txns' = w.txns.set w.i.toNat t') := by
  obtain ⟨t, ht⟩ := getElem?_of_walkGuard w hg
  have hgd := hg
  simp only [walkGuard, decide_eq_true_eq] at hgd
  have hi : w.i.toNat < w.txns.length := by omega
  have hicast : ((w.i.toNat : Nat) : Int) = w.i := Int.toNat_of_nonneg hgd.2
  refine ⟨t, ht, ?_⟩
  intro t' db' rest hsel
  have hset : (w.txns.set w.i.toNat t')[w.i.toNat]? = some t' := by
    rw [List.getElem?_set_self hi]
  obtain ⟨upto, txns', happ, hlo, hhi, hlen, hsame, hprop⟩ :=
    applyToSimilarTxns_range (w.txns.set w.i.toNat t') w.i.toNat t' hset
  rw [List.length_set] at hhi hlen
  have hL : ((txns'.take upto).drop (w.i.toNat + 1)).length = upto - (w.i.toNat + 1) := by
    rw [List.length_drop, List.length_take]
    omega
  have hk : ∀ k, k < upto - (w.i.toNat + 1) →
      ((txns'.take upto).drop (w.i.toNat + 1))[k]? = txns'[w.i.toNat + 1 + k]? := by
    intro k hk
    rw [List.getElem?_drop, List.getElem?_take_of_lt (by omega)]
  refine ⟨upto, txns', happ, ?_, hL, hk, ?_, hsame⟩
  · by_cases hu : upto = w.i.toNat + 1
    · have hcast : ((upto : Nat) : Int) = w.i + 1 := by omega
      have hnil : (txns'.take upto).drop (w.i.toNat + 1) = [] := by
        apply List.eq_nil_of_length_eq_zero
        rw [hL]; omega
      have hgo : w.i + goInt resAdvance = (upto : Int) := by
        have : goInt resAdvance = 1 := by decide
        rw [this]; omega
      simp only [walkStep, ht, hsel, happ, if_true, hcast, hgo, hnil, List.append_nil,
        if_pos hu]
    · have hcast : ¬ ((upto : Nat) : Int) = w.i + 1 := by omega
      simp only [walkStep, ht, hsel, happ, if_true, if_neg hcast, if_neg hu]
  · intro c hc
    obtain ⟨k, hklt, hkc⟩ := List.getElem_of_mem hc
    rw [hL] at hklt
    have h1 : ((txns'.take upto).drop (w.i.toNat + 1))[k]? = some c := by
      rw [List.getElem?_eq_getElem (by rw [hL]; exact hklt), hkc]
    rw [hk k hklt] at h1
    obtain ⟨dst, _, hcd⟩ := hprop (w.i.toNat + 1 + k) c (by omega) (by omega) h1
    rw [hcd]
    exact ⟨rfl, rfl⟩

theorem walkStep_advance_witness :
    walkGuard ⟨starbucksBatch, 2, [], [Char.ofNat 10, 'x', 'q']⟩ = true ∧
    walkStep demoEnv 1 ⟨starbucksBatch, 2, [], [Char.ofNat 10, 'x', 'q']⟩
      = some ⟨[⟨0, "RENT JAN", -90000, "Expenses:Rent", "Assets:Checking", true⟩,
               ⟨0, "SHELL 0042", -3500, "Expenses:Car", "Assets:Checking", true⟩,
               ⟨0, "STARBUCKS #123", -450, "Expenses:Food", "Assets:Checking", true⟩,
               ⟨0, "STARBUCKS #456", -475, "Expenses:Food", "Assets:Checking", true⟩,
               ⟨0, "STARBUCKS 789", -500, "Expenses:Food", "Assets:Checking", true⟩,
               ⟨0, "STARBUCKS #123", 450, "", "Assets:Checking", false⟩], 5,
              [⟨0, "STARBUCKS #123", -450, "Expenses:Food", "Assets:Checking", true⟩,
               ⟨0, "STARBUCKS #456", -475, "Expenses:Food", "Assets:Checking", true⟩,
               ⟨0, "STARBUCKS 789", -500, "Expenses:Food", "Assets:Checking", true⟩],
              ['q']⟩ ∧
    ∃ t, starbucksBatch[2]? = some t ∧
      ∀ t' db' rest,
        categorizeTxn demoEnv 1 t [] [Char.ofNat 10, 'x', 'q']
            = some (resAdvance, t', db', rest) →
        ∃ upto txns', applyToSimilarTxns (starbucksBatch.set 2 t') 2 = some (upto, txns') ∧
          (∀ c ∈ (txns'.take upto).drop (2 + 1), c.From = t'.From ∧ c.Done = true) := by
  refine ⟨by decide, by decide, ?_⟩
  obtain ⟨t, ht, h⟩ :=
    walkStep_advance demoEnv 1 ⟨starbucksBatch, 2, [], [Char.ofNat 10, 'x', 'q']⟩ (by decide)
  refine ⟨t, ht, ?_⟩
  intro t' db' rest hsel
  obtain ⟨upto, txns', h1, _, _, _, h5, _⟩ := h t' db' rest hsel
  exact ⟨upto, txns', h1, h5⟩

theorem set_eq_self_of_getElem? {l : List Txn} {i : Nat} {a : Txn} (h : l[i]? = some a) :
    l.set i a = l := by
  apply List.ext_getElem?
  intro j
  by_cases hj : i = j
  · subst hj
    have hi : i < l.length := by
      by_contra hn
      rw [List.getElem?_eq_none (by omega)] at h
      exact Option.noConfusion h
    rw [List.getElem?_set_self hi, h]
  · rw [List.getElem?_set_ne hj]

theorem bigBatch_length : bigBatch.length = 1000000 := List.length_replicate _ _

theorem bigBatch_getElem? (j : Nat) (h : j < 1000000) : bigBatch[j]? = some paidTaxi := by
  unfold bigBatch
  rw [List.getElem?_replicate, if_pos h]

theorem walk_step (env : Collab) (n : Nat) (w w' : Walk) (hg : walkGuard w = true)
    (hs : walkStep env (n + 1) w = some w') : walk env (n + 1) w = walk env n w' := by
  simp only [walk, hg, if_true, hs]

theorem walk_done (env : Collab) (n : Nat) (w : Walk) (hg : walkGuard w = false) :
    walk env (n + 1) w = some w := by
  simp only [walk, hg, Bool.false_eq_true, if_false]

/-- The branch "Did not find anything" of the walk. -/
theorem walkStep_advance_none (env : Collab) (fuel : Nat) (w : Walk) (t t' : Txn)
    (db' : List Txn) (rest : List Char) (upto : Nat) (txns' : List Txn)
    (ht : w.txns[w.i.toNat]? = some t)
    (hsel : categorizeTxn env fuel t w.db w.input = some (resAdvance, t', db', rest))
    (happ : applyToSimilarTxns (w.txns.set w.i.toNat t') w.i.toNat = some (upto, txns'))
    (hu : (upto : Int) = w.i + 1) :
    walkStep env fuel w = some ⟨txns', w.i + 1, db', rest⟩ := by
  have hgo : goInt resAdvance = 1 := by decide
  simp only [walkStep, ht, hsel, happ, if_true, hu, hgo]

/-- When the batch has at most `i + 999999` transactions, a result `999999.0` ends the
walk at once. -/
theorem walk_quit_ends (env : Collab) (n : Nat) (w : Walk) (t t' : Txn) (db' : List Txn)
    (rest : List Char) (hg : walkGuard w = true) (ht : w.txns[w.i.toNat]? = some t)
    (hsel : categorizeTxn env (n + 2) t w.db w.input = some (resQuit, t', db', rest))
    (hlen : (w.txns.length : Int) ≤ w.i + 999999) :
    walk env (n + 2) w = some ⟨w.txns.set w.i.toNat t', w.i + 999999, db', rest⟩ := by
  have hstep := walkStep_other env (n + 2) w t t' resQuit db' rest ht hsel (by decide)
  have hgo : goInt resQuit = 999999 := by decide
  rw [hgo] at hstep
  have hg' : walkGuard ⟨w.txns.set w.i.toNat t', w.i + 999999, db', rest⟩ = false := by
    simp only [walkGuard, List.length_set, decide_eq_false_iff_not]
    omega
  rw [walk_step env (n + 1) w _ hg hstep]
  exact walk_done env n _ hg'

/-- C11 (the code departs from the claim): on a batch of one million transactions the
quit key at index 0 does not end the walk. `categorizeTxn` returns `999999.0`, the walk
adds `int(999999.0)` to the index, and `999999 < len(txns)` still holds; the next
iteration calls `categorizeTxn` on the transaction at index 999999, and the newline byte
that follows commits it. -/
theorem walk_goes_on_after_quit :
    categorizeTxn demoEnv 3 paidTaxi [] ['q', Char.ofNat 10]
      = some (resQuit, paidTaxi, [], [Char.ofNat 10]) ∧
    walkStep demoEnv 3 ⟨bigBatch, 0, [], ['q', Char.ofNat 10]⟩
      = some ⟨bigBatch, 999999, [], [Char.ofNat 10]⟩ ∧
    walkGuard ⟨bigBatch, 999999, [], [Char.ofNat 10]⟩ = true ∧
    walk demoEnv 3 ⟨bigBatch, 0, [], ['q', Char.ofNat 10]⟩
      = some ⟨bigBatch.set 999999 { paidTaxi with Done := true }, 1000000, [paidTaxi], []⟩ := by
  have hq : categorizeTxn demoEnv 3 paidTaxi [] ['q', Char.ofNat 10]
      = some (resQuit, paidTaxi, [], [Char.ofNat 10]) := by decide
  have hc : categorizeTxn demoEnv 2 paidTaxi [] [Char.ofNat 10]
      = some (resAdvance, { paidTaxi with Done := true }, [paidTaxi], []) := by decide
  have hg0 : walkGuard ⟨bigBatch, 0, [], ['q', Char.ofNat 10]⟩ = true := by
    simp only [walkGuard, bigBatch_length, decide_eq_true_eq]
    omega
  have hg1 : walkGuard ⟨bigBatch, 999999, [], [Char.ofNat 10]⟩ = true := by
    simp only [walkGuard, bigBatch_length, decide_eq_true_eq]
    omega
  have hs0 : walkStep demoEnv 3 ⟨bigBatch, 0, [], ['q', Char.ofNat 10]⟩
      = some ⟨bigBatch, 999999, [], [Char.ofNat 10]⟩ := by
    have h0 : bigBatch[(0 : Int).toNat]? = some paidTaxi := bigBatch_getElem? 0 (by omega)
    have hstep := walkStep_other demoEnv 3 ⟨bigBatch, 0, [], ['q', Char.ofNat 10]⟩
      paidTaxi paidTaxi resQuit [] [Char.ofNat 10] h0 hq (by decide)
    rw [hstep]
    have hset : bigBatch.set (0 : Int).toNat paidTaxi = bigBatch := set_eq_self_of_getElem? h0
    have hgo : (0 : Int) + goInt resQuit = 999999 := by decide
    simp only [hset, hgo]
  have h1 : bigBatch[(999999 : Int).toNat]? = some paidTaxi :=
    bigBatch_getElem? 999999 (by omega)
  have hlast : (bigBatch.set 999999 { paidTaxi with Done := true })[999999]?
      = some { paidTaxi with Done := true } := by
    rw [List.getElem?_set_self (by rw [bigBatch_length]; omega)]
  obtain ⟨upto, txns', happ, hlo, hhi, _, hsame, _⟩ :=
    applyToSimilarTxns_range (bigBatch.set 999999 { paidTaxi with Done := true }) 999999
      { paidTaxi with Done := true } hlast
  rw [List.length_set, bigBatch_length] at hhi
  have hu : upto = 999999 + 1 := by omega
  have htx : txns' = bigBatch.set 999999 { paidTaxi with Done := true } := hsame hu
  subst hu htx
  have hs1 : walkStep demoEnv 2 ⟨bigBatch, 999999, [], [Char.ofNat 10]⟩
      = some ⟨bigBatch.set 999999 { paidTaxi with Done := true }, 1000000, [paidTaxi], []⟩ := by
    have e2 : (((999999 + 1 : Nat)) : Int) = (999999 : Int) + 1 := by omega
    exact walkStep_advance_none demoEnv 2 ⟨bigBatch, 999999, [], [Char.ofNat 10]⟩
      paidTaxi { paidTaxi with Done := true } [paidTaxi] [] (999999 + 1) _ h1 hc happ e2
  have hg2 : walkGuard ⟨bigBatch.set 999999 { paidTaxi with Done := true }, 1000000,
      [paidTaxi], []⟩ = false := by
    simp only [walkGuard, List.length_set, bigBatch_length, decide_eq_false_iff_not]
    omega
  refine ⟨hq, hs0, hg1, ?_⟩
  rw [walk_step demoEnv 2 _ _ hg0 hs0, walk_step demoEnv 1 _ _ hg1 hs1]
  exact walk_done demoEnv 0 _ hg2

/-- An iteration of the walk entered with the loop condition true does not fail on an
index: it ends whenever `categorizeTxn` returns, and the batch keeps its length. -/
theorem walkStep_length (env : Collab) (fuel : Nat) (w : Walk) (hg : walkGuard w = true) :
    ∃ t, w.txns[w.i.toNat]? = some t ∧
      (∀ t', ∃ upto txns',
        applyToSimilarTxns (w.txns.set w.i.toNat t') w.i.toNat = some (upto, txns') ∧
          upto ≤ w.txns.length ∧ txns'.length = w.txns.length) ∧
      (∀ r, categorizeTxn env fuel t w.db w.input = some r →
        ∃ w', walkStep env fuel w = some w' ∧ w'.txns.length = w.txns.length) ∧
      (∀ w', walkStep env fuel w = some w' → w'.txns.length = w.txns.length) := by
  obtain ⟨t, ht⟩ := getElem?_of_walkGuard w hg
  have hgd := hg
  simp only [walkGuard, decide_eq_true_eq] at hgd
  have hi : w.i.toNat < w.txns.length := by omega
  have hprop : ∀ t', ∃ upto txns',
      applyToSimilarTxns (w.txns.set w.i.toNat t') w.i.toNat = some (upto, txns') ∧
        upto ≤ w.txns.length ∧ txns'.length = w.txns.length := by
    intro t'
    obtain ⟨upto, txns', happ, _, hhi, hlen, _, _⟩ :=
      applyToSimilarTxns_range (w.txns.set w.i.toNat t') w.i.toNat t'
        (by rw [List.getElem?_set_self hi])
    rw [List.length_set] at hhi hlen
    exact ⟨upto, txns', happ, hhi, hlen⟩
  have hsome : ∀ r, categorizeTxn env fuel t w.db w.input = some r →
      ∃ w', walkStep env fuel w = some w' ∧ w'.txns.length = w.txns.length := by
    intro r hr
    obtain ⟨res, t', db', rest⟩ := r
    by_cases hres : res = resAdvance
    · subst hres
      obtain ⟨upto, txns', happ, _, hlen⟩ := hprop t'
      by_cases hu : (upto : Int) = w.i + 1
      · exact ⟨_, walkStep_advance_none env fuel w t t' db' rest upto txns' ht hr happ hu, hlen⟩
      · refine ⟨⟨txns', upto, db' ++ (txns'.take upto).drop (w.i.toNat + 1),
          (readByte rest).2⟩, ?_, hlen⟩
        simp only [walkStep, ht, hr, happ, if_true, if_neg hu]
    · exact ⟨_, walkStep_other env fuel w t t' res db' rest ht hr hres,
        by simp only [List.length_set]⟩
  refine ⟨t, ht, hprop, hsome, ?_⟩
  intro w' hw'
  cases hc : categorizeTxn env fuel t w.db w.input with
  | none =>
    simp only [walkStep, ht, hc] at hw'
    exact Option.noConfusion hw'
  | some r =>
    obtain ⟨w'', h1, h2⟩ := hsome r hc
    rw [h1] at hw'
    rw [← Option.some.inj hw']
    exact h2

theorem walkIndices_bound (env : Collab) : ∀ (fuel : Nat) (w : Walk),
    ∀ i ∈ walkIndices env fuel w, 0 ≤ i ∧ i < (w.txns.length : Int)
  | 0, w, i, hi => by simp [walkIndices] at hi
  | fuel + 1, w, i, hi => by
    by_cases hg : walkGuard w = true
    · simp only [walkIndices, hg, if_true, List.mem_cons] at hi
      rcases hi with hi | hi
      · subst hi
        simp only [walkGuard, decide_eq_true_eq] at hg
        omega
      · cases hs : walkStep env (fuel + 1) w with
        | none =>
          rw [hs] at hi
          simp at hi
        | some w' =>
          rw [hs] at hi
          obtain ⟨_, _, _, _, hlen⟩ := walkStep_length env (fuel + 1) w hg
          have := walkIndices_bound env fuel w' i hi
          rw [hlen w' hs] at this
          exact this
    · simp only [walkIndices, hg, Bool.false_eq_true, if_false, List.not_mem_nil] at hi

/-- C20: index safety of the walk of `showAndCategorizeTxns`. Every index at which the
walk calls `categorizeTxn` (and, after `1.0`, `applyToSimilarTxns`) is at least 0 and
below the length of the batch, whatever the selector returns; at such an index the lookup
`txns[i]` succeeds, the propagation returns an end index at most the length and a batch
of the same length, and the iteration does not fail on an index. A result `-1.0` at index
0 moves the index to -1 and ends the walk after this one iteration. On the empty batch
the walk runs no iteration. -/
theorem walk_index_safe (env : Collab) :
    (∀ (fuel : Nat) (w : Walk), ∀ i ∈ walkIndices env fuel w,
      0 ≤ i ∧ i < (w.txns.length : Int)) ∧
    (∀ (fuel : Nat) (w : Walk), walkGuard w = true →
      ∃ t, w.txns[w.i.toNat]? = some t ∧
        (∀ t', ∃ upto txns',
          applyToSimilarTxns (w.txns.set w.i.toNat t') w.i.toNat = some (upto, txns') ∧
            upto ≤ w.txns.length ∧ txns'.length = w.txns.length) ∧
        (∀ r, categorizeTxn env fuel t w.db w.input = some r →
          ∃ w', walkStep env fuel w = some w' ∧ w'.txns.length = w.txns.length)) ∧
    (∀ (n : Nat) (w : Walk) (t t' : Txn) (db' : List Txn) (rest : List Char),
      w.i = 0 → w.txns[0]? = some t →
      categorizeTxn env (n + 2) t w.db w.input = some (resBack, t', db', rest) →
        walk env (n + 2) w = some ⟨w.txns.set 0 t', -1, db', rest⟩ ∧
        walkIndices env (n + 2) w = [0]) ∧
    (∀ (n : Nat) (db : List Txn) (input : List Char),
      walk env (n + 1) ⟨[], 0, db, input⟩ = some ⟨[], 0, db, input⟩ ∧
      walkIndices env (n + 1) ⟨[], 0, db, input⟩ = []) := by
  refine ⟨walkIndices_bound env, ?_, ?_, ?_⟩
  · intro fuel w hg
    obtain ⟨t, ht, h1, h2, _⟩ := walkStep_length env fuel w hg
    exact ⟨t, ht, h1, h2⟩
  · intro n w t t' db' rest hi ht hsel
    have hlen : 0 < w.txns.length := by
      by_contra hn
      rw [List.getElem?_eq_none (by omega)] at ht
      exact Option.noConfusion ht
    have hg : walkGuard w = true := by
      simp only [walkGuard, decide_eq_true_eq]
      omega
    have ht' : w.txns[w.i.toNat]? = some t := by rw [hi]; exact ht
    have hstep := walkStep_other env (n + 2) w t t' resBack db' rest ht' hsel (by decide)
    have hgo : w.i + goInt resBack = -1 := by
      have : goInt resBack = -1 := by decide
      rw [this, hi]; rfl
    have hnat : w.i.toNat = 0 := by rw [hi]; rfl
    rw [hgo, hnat] at hstep
    have hg' : walkGuard ⟨w.txns.set 0 t', -1, db', rest⟩ = false := by
      simp only [walkGuard, decide_eq_false_iff_not]
      omega
    constructor
    · rw [walk_step env (n + 1) w _ hg hstep]
      exact walk_done env n _ hg'
    · simp only [walkIndices, hg, if_true, hstep, hg', Bool.false_eq_true, if_false, hi]
  · intro n db input
    have hg : walkGuard ⟨[], 0, db, input⟩ = false := by simp [walkGuard]
    exact ⟨walk_done env n _ hg, by simp only [walkIndices, hg, Bool.false_eq_true, if_false]⟩

theorem walk_index_safe_witness :
    walkGuard ⟨coffeeBatch, 0, [], ['b', 'q']⟩ = true ∧
    walk demoEnv 2 ⟨coffeeBatch, 0, [], ['b', 'q']⟩
      = some ⟨coffeeBatch, -1, [], ['q']⟩ ∧
    walkIndices demoEnv 2 ⟨coffeeBatch, 0, [], ['b', 'q']⟩ = [0] ∧
    walkIndices demoEnv 5 ⟨coffeeBatch, 0, [], ['x', Char.ofNat 10, 'b', 'q']⟩ = [0, 0, 0] ∧
    ∀ i ∈ walkIndices demoEnv 5 ⟨coffeeBatch, 0, [], ['x', Char.ofNat 10, 'b', 'q']⟩,
      0 ≤ i ∧ i < ((coffeeBatch.length : Nat) : Int) :=
  ⟨by decide,
    ((walk_index_safe demoEnv).2.2.1 0 ⟨coffeeBatch, 0, [], ['b', 'q']⟩ _ _ _ _
      rfl (by decide) (by decide : categorizeTxn demoEnv 2
        ⟨0, "STARBUCKS #1", -450, "", "Assets:Checking", false⟩ [] ['b', 'q']
          = some (resBack, ⟨0, "STARBUCKS #1", -450, "", "Assets:Checking", false⟩,
              [], ['q']))).1,
    by decide, by decide,
    (walk_index_safe demoEnv).1 5 ⟨coffeeBatch, 0, [], ['x', Char.ofNat 10, 'b', 'q']⟩⟩

/-! ## Theorems: removeDuplicates, continued -/

/-- The first loop of `removeDuplicates` on a date-ascending history: it breaks exactly
when some entry is dated after `first`, and then `prev` holds the entries dated after
`first` and no other. -/
theorem scanStart_sorted (first : Int) : ∀ l : List Txn,
    l.Sorted (fun a b => a.Date ≤ b.Date) →
      (∀ s, scanStart first l = some s → s = l.filter (fun h => decide (h.Date > first))) ∧
      (scanStart first l = none ↔ ∀ h ∈ l, h.Date ≤ first)
  | [], _ => by simp [scanStart]
  | t :: rest, hs => by
    obtain ⟨ih1, ih2⟩ := scanStart_sorted first rest hs.of_cons
    by_cases ht : t.Date > first
    · constructor
      · intro s h
        simp only [scanStart, if_pos ht, Option.some.injEq] at h
        subst h
        symm
        apply List.filter_eq_self.mpr
        intro x hx
        rcases List.mem_cons.mp hx with hx | hx
        · subst hx; exact decide_eq_true ht
        · have := List.rel_of_sorted_cons hs x hx
          exact decide_eq_true (by omega)
      · simp only [scanStart, if_pos ht]
        constructor
        · intro h; exact Option.noConfusion h
        · intro h
          have := h t (List.mem_cons_self _ _)
          omega
    · constructor
      · intro s h
        simp only [scanStart, if_neg ht] at h
        rw [ih1 s h, List.filter_cons, if_neg (by simpa using ht)]
      · simp only [scanStart, if_neg ht, ih2, List.mem_cons, forall_eq_or_imp]
        constructor
        · intro h; exact ⟨by omega, h⟩
        · intro h; exact h.2

theorem scanStart_subset (first : Int) : ∀ (l s : List Txn),
    scanStart first l = some s → ∀ x ∈ s, x ∈ l
  | [], s, h, _, _ => by simp [scanStart] at h
  | t :: rest, s, h, x, hx => by
    by_cases ht : t.Date > first
    · simp only [scanStart, if_pos ht, Option.some.injEq] at h
      subst h
      exact hx
    · simp only [scanStart, if_neg ht] at h
      exact List.mem_cons_of_mem _ (scanStart_subset first rest s h x hx)

theorem scanned_subset (ptxns : List Txn) (t0 : Txn) : ∀ x ∈ scanned ptxns t0, x ∈ ptxns := by
  intro x hx
  unfold scanned at hx
  cases hs : scanStart (t0.Date + (-24) * hour) ptxns with
  | none => rw [hs] at hx; exact hx
  | some s => rw [hs] at hx; exact scanStart_subset _ ptxns s hs x hx

/-- The result of `removeDuplicates` on a non-empty batch, in terms of the scanned part
of the history. -/
theorem removeDuplicates_eq (srt : List Txn → List Txn) (hs : IsByTimeSort srt)
    (ptxns : List Txn) (dupWithin : Int) (txns : List Txn) (hne : txns ≠ []) :
    ∃ t0 ts, srt txns = t0 :: ts ∧
      removeDuplicates srt ptxns dupWithin txns
        = (srt ptxns, (srt txns).filter
            (fun t => !found (wrap64 (dupWithin * hour)) t (scanned (srt ptxns) t0))) := by
  have hlen : txns.length ≠ 0 := fun h => hne (List.eq_nil_of_length_eq_zero h)
  cases hst : srt txns with
  | nil =>
    have := (hs txns).1.length_eq
    rw [hst] at this
    exact absurd this.symm hlen
  | cons t0 ts =>
    refine ⟨t0, ts, rfl, ?_⟩
    simp only [removeDuplicates, if_neg hlen, hst, scanned]

/-- C18 as stated fails: with the window at 3000 hours, the new transaction dated 3000
hours and one nanosecond after the only history entry is dropped, although no history
entry lies within the window: `float64` of the difference rounds to `float64` of the
window. -/
theorem removeDuplicates_drops_outside_window :
    (removeDuplicates sortByTime [amazonJan1] 3000 [amazonLate]).2 = [] ∧
    amazonLate.Date - amazonJan1.Date = 3000 * hour + 1 ∧
    ¬ ∃ h ∈ [amazonJan1], isDupOf (3000 * hour) h amazonLate := by
  decide

/-- C18, amended: for every history, batch and window, the result of `removeDuplicates` is
a sublist of the date-sorted batch (nothing added, altered or reordered) and holds only
transactions of the batch; every transaction of the batch that is missing from the
result has a history entry that passes the test of the inner loop: the same sanitized
description, the same absolute amount and a date difference whose float64 value is at
most the float64 value of the window (the int64 product of `dupWithin` and one hour); when
that product does not overflow and is below `2 ^ 53` nanoseconds, the date difference
itself is at most the window; with an empty history the result is the whole sorted batch,
and with an empty batch it is empty. -/
theorem removeDuplicates_sound (srt : List Txn → List Txn) (hs : IsByTimeSort srt)
    (ptxns : List Txn) (dupWithin : Int) (txns : List Txn) :
    (removeDuplicates srt ptxns dupWithin txns).2.Sublist (srt txns) ∧
    (∀ t ∈ (removeDuplicates srt ptxns dupWithin txns).2, t ∈ txns) ∧
    (∀ t ∈ txns, t ∉ (removeDuplicates srt ptxns dupWithin txns).2 →
      ∃ h ∈ ptxns, dupTest (wrap64 (dupWithin * hour)) h t) ∧
    (-(2 ^ 63) ≤ dupWithin * hour → dupWithin * hour < 2 ^ 53 →
      ∀ t ∈ txns, t ∉ (removeDuplicates srt ptxns dupWithin txns).2 →
        ∃ h ∈ ptxns, isDupOf (dupWithin * hour) h t) ∧
    (ptxns = [] → (removeDuplicates srt ptxns dupWithin txns).2 = srt txns) ∧
    (txns = [] → (removeDuplicates srt ptxns dupWithin txns).2 = []) := by
  have hnil : srt [] = [] := (hs []).1.eq_nil
  have hev : ∀ t ∈ txns, t ∉ (removeDuplicates srt ptxns dupWithin txns).2 →
      ∃ h ∈ ptxns, dupTest (wrap64 (dupWithin * hour)) h t := by
    intro t ht hnot
    have hne : txns ≠ [] := List.ne_nil_of_mem ht
    obtain ⟨t0, ts, hst, e⟩ := removeDuplicates_eq srt hs ptxns dupWithin txns hne
    rw [e] at hnot
    have hts : t ∈ srt txns := (hs txns).1.symm.subset ht
    have hf : found (wrap64 (dupWithin * hour)) t (scanned (srt ptxns) t0) = true := by
      by_contra hf
      apply hnot
      exact List.mem_filter.mpr ⟨hts, by simpa using hf⟩
    obtain ⟨h, hh, hd⟩ := found_sound _ _ _ hf
    exact ⟨h, (hs ptxns).1.subset (scanned_subset _ _ h hh), hd⟩
  have hexact : -(2 ^ 63) ≤ dupWithin * hour → dupWithin * hour < 2 ^ 53 →
      ∀ t ∈ txns, t ∉ (removeDuplicates srt ptxns dupWithin txns).2 →
        ∃ h ∈ ptxns, isDupOf (dupWithin * hour) h t := by
    intro h1 h2 t ht hnot
    obtain ⟨h, hh, hd⟩ := hev t ht hnot
    rw [wrap64_id _ h1 (by omega)] at hd
    exact ⟨h, hh, hd.1.symm, le_of_within_small _ _ _ h1 h2 hd.2.1, hd.2.2⟩
  by_cases hne : txns = []
  · subst hne
    have e : removeDuplicates srt ptxns dupWithin [] = (ptxns, []) := by
      simp [removeDuplicates]
    rw [e, hnil]
    exact ⟨List.Sublist.refl _, by simp, by simp, fun _ _ => by simp, fun _ => rfl,
      fun _ => rfl⟩
  · refine ⟨?_, ?_, hev, hexact, ?_, fun h => absurd h hne⟩
    · obtain ⟨t0, ts, hst, e⟩ := removeDuplicates_eq srt hs ptxns dupWithin txns hne
      rw [e]
      exact List.filter_sublist _
    · obtain ⟨t0, ts, hst, e⟩ := removeDuplicates_eq srt hs ptxns dupWithin txns hne
      rw [e]
      intro t ht
      exact (hs txns).1.subset (List.mem_filter.mp ht).1
    · intro hp
      subst hp
      obtain ⟨t0, ts, hst, e⟩ := removeDuplicates_eq srt hs [] dupWithin txns hne
      rw [e, hnil]
      apply List.filter_eq_self.mpr
      intro t _
      simp [scanned, scanStart, found]

theorem removeDuplicates_sound_witness :
    IsByTimeSort sortByTime ∧
    -(2 ^ 63) ≤ (24 : Int) * hour ∧ (24 : Int) * hour < 2 ^ 53 ∧
    (removeDuplicates sortByTime [amazonJan1] 24 [grocerNew, amazonJan2]).2 = [grocerNew] ∧
    (∀ t ∈ [grocerNew, amazonJan2],
      t ∉ (removeDuplicates sortByTime [amazonJan1] 24 [grocerNew, amazonJan2]).2 →
        ∃ h ∈ [amazonJan1], isDupOf (24 * hour) h t) ∧
    ∀ t ∈ [amazonLate],
      t ∉ (removeDuplicates sortByTime [amazonJan1] 3000 [amazonLate]).2 →
        ∃ h ∈ [amazonJan1], dupTest (wrap64 (3000 * hour)) h t :=
  ⟨sortByTime_isByTimeSort, by decide, by decide, by decide,
    (removeDuplicates_sound sortByTime sortByTime_isByTimeSort [amazonJan1] 24
      [grocerNew, amazonJan2]).2.2.2.1 (by decide) (by decide),
    (removeDuplicates_sound sortByTime sortByTime_isByTimeSort [amazonJan1] 3000
      [amazonLate]).2.2.1⟩

/-- C14 as stated fails: with the window at 2562048 hours the int64 product
`time.Duration(*dupWithin) * time.Hour` wraps to a negative duration; the history entry of
2024-01-01 and the new transaction of 2024-01-02 have equal sanitized descriptions, equal
absolute amounts and dates within the window, yet `removeDuplicates` keeps the new
transaction. -/
theorem removeDuplicates_single_overflow :
    isDupOf (2562048 * hour) amazonJan1 amazonJan2 ∧
    wrap64 (2562048 * hour) = -9223371273709551616 ∧
    (removeDuplicates sortByTime [amazonJan1] 2562048 [amazonJan2]).2 = [amazonJan2] := by
  decide

/-- C14, amended: for every window of less than `2 ^ 63` nanoseconds (at most 2562047
hours, so that it fits a `time.Duration`), every history of exactly one entry `h` and
every batch of exactly one transaction `t` with equal sanitized descriptions, dates at
most the window apart (boundary included) and equal absolute amounts, `removeDuplicates`
returns the empty batch. -/
theorem removeDuplicates_single (srt : List Txn → List Txn) (hs : IsByTimeSort srt)
    (h t : Txn) (dupWithin : Int) (hfit : dupWithin * hour < 2 ^ 63)
    (hd : isDupOf (dupWithin * hour) h t) :
    (removeDuplicates srt [h] dupWithin [t]).2 = [] := by
  have e1 : srt [h] = [h] := List.perm_singleton.mp (hs [h]).1
  have e2 : srt [t] = [t] := List.perm_singleton.mp (hs [t]).1
  have hpos : (0 : Int) ≤ dupWithin * hour := by
    have := hd.2.1
    omega
  have hw : wrap64 (dupWithin * hour) = dupWithin * hour := wrap64_id _ (by omega) hfit
  obtain ⟨t0, ts, hst, e⟩ := removeDuplicates_eq srt hs [h] dupWithin [t] (by simp)
  rw [e2] at hst
  have ht0 : t0 = t := by
    injection hst with h1 _
    exact h1.symm
  subst ht0
  rw [e, e1, e2, hw]
  have hsc : scanned [h] t0 = [h] := by
    unfold scanned
    by_cases hb : h.Date > t0.Date + (-24) * hour
    · simp only [scanStart, if_pos hb, Option.getD_some]
    · simp only [scanStart, if_neg hb, Option.getD_none]
  have hf : found (dupWithin * hour) t0 [h] = true :=
    found_complete _ hfit _ _ (List.sorted_singleton h) ⟨h, List.mem_singleton_self h, hd⟩
  simp [hsc, hf]

theorem removeDuplicates_single_witness :
    IsByTimeSort sortByTime ∧ (24 : Int) * hour < 2 ^ 63 ∧
    isDupOf (24 * hour) amazonJan1 amazonJan2 ∧
    (removeDuplicates sortByTime [amazonJan1] 24 [amazonJan2]).2 = [] :=
  ⟨sortByTime_isByTimeSort, by decide, by decide,
    removeDuplicates_single sortByTime sortByTime_isByTimeSort amazonJan1 amazonJan2 24
      (by decide) (by decide)⟩

/-- C16 (the code departs from the claim): the part of a date-sorted history that
`removeDuplicates` scans is not the suffix from the first entry dated no earlier than the
earliest new date minus 24 hours. With the history of 2024-01-01 and 2024-01-05 and the
new transaction of 2024-01-02, the entry of 2024-01-01 is dated exactly at the bound and
is left out of the scanned part. With the history of 2023-12-28 alone, that entry is
dated before the bound and is scanned. -/
theorem scanned_differs_from_bound_suffix :
    removeDuplicates sortByTime [amazonJan1, netflixJan5] 24 [amazonJan2]
      = ([amazonJan1, netflixJan5], [amazonJan2].filter
          (fun t => !found (24 * hour) t (scanned [amazonJan1, netflixJan5] amazonJan2))) ∧
    List.Sorted (fun a b : Txn => a.Date ≤ b.Date) [amazonJan1, netflixJan5] ∧
    amazonJan1.Date ≥ amazonJan2.Date - 24 * hour ∧
    scanned [amazonJan1, netflixJan5] amazonJan2 = [netflixJan5] ∧
    amazonDec28.Date < amazonJan2.Date - 24 * hour ∧
    scanned [amazonDec28] amazonJan2 = [amazonDec28] := by
  decide

/-! ## Theorems: rule precedence, double commit, similarity key -/

/-- With a total matcher, `matchesCategory` returns the name of the first category, in
the order it is given, that has a matching pattern, and the empty string when there is
none. -/
theorem matchesCategory_first (m : String → String → Bool) (t : Txn) :
    ∀ rs : Rules, matchesCategory (fun p d => some (m p d)) t rs
      = some (match rs.find? (fun r => r.2.any (fun p => m p t.Desc)) with
          | some r => r.1
          | none => "")
  | [] => rfl
  | (category, patterns) :: rest => by
    have ih := matchesCategory_first m t rest
    cases hp : patterns.any (fun p => m p t.Desc)
    · simp only [matchesCategory, matchPatterns_total, hp, ih, List.find?_cons]
    · simp only [matchesCategory, matchPatterns_total, hp, List.find?_cons]

theorem matchesCategory_perm (m : String → String → Bool) (t : Txn) (r1 r2 : Rules)
    (hp : r1.Perm r2)
    (huniq : ∀ a ∈ r1, ∀ b ∈ r1, a.2.any (fun p => m p t.Desc) = true →
      b.2.any (fun p => m p t.Desc) = true → a.1 = b.1) :
    matchesCategory (fun p d => some (m p d)) t r1
      = matchesCategory (fun p d => some (m p d)) t r2 := by
  rw [matchesCategory_first, matchesCategory_first]
  congr 1
  cases h1 : r1.find? (fun r => r.2.any (fun p => m p t.Desc)) with
  | none =>
    have hn1 := List.find?_eq_none.mp h1
    have h2 : r2.find? (fun r => r.2.any (fun p => m p t.Desc)) = none := by
      apply List.find?_eq_none.mpr
      intro x hx
      exact hn1 x (hp.mem_iff.mpr hx)
    rw [h2]
  | some a =>
    have ha := List.find?_some h1
    have ham := List.mem_of_find?_eq_some h1
    cases h2 : r2.find? (fun r => r.2.any (fun p => m p t.Desc)) with
    | none =>
      have hn2 := List.find?_eq_none.mp h2
      exact absurd ha (hn2 a (hp.mem_iff.mp ham))
    | some b =>
      have hb := List.find?_some h2
      have hbm := hp.mem_iff.mpr (List.mem_of_find?_eq_some h2)
      exact huniq a ham b hbm ha hb

theorem rulesLoop_perm (m : String → String → Bool) (rules : Rules)
    (iter1 iter2 : Nat → Rules) (h1 : ∀ k, (iter1 k).Perm rules)
    (h2 : ∀ k, (iter2 k).Perm rules) :
    ∀ (txns : List Txn) (k : Nat),
      (∀ t ∈ txns, ∀ a ∈ rules, ∀ b ∈ rules, a.2.any (fun p => m p t.Desc) = true →
        b.2.any (fun p => m p t.Desc) = true → a.1 = b.1) →
      rulesLoop (fun p d => some (m p d)) iter1 k txns
        = rulesLoop (fun p d => some (m p d)) iter2 k txns
  | [], _, _ => rfl
  | t :: rest, k, hu => by
    have ih := rulesLoop_perm m rules iter1 iter2 h1 h2 rest (k + 1)
      (fun x hx => hu x (List.mem_cons_of_mem _ hx))
    have hm : matchesCategory (fun p d => some (m p d)) t (iter1 k)
        = matchesCategory (fun p d => some (m p d)) t (iter2 k) := by
      apply matchesCategory_perm m t _ _ ((h1 k).trans (h2 k).symm)
      intro a ha b hb
      exact hu t (List.mem_cons_self _ _) a ((h1 k).mem_iff.mp ha) b ((h1 k).mem_iff.mp hb)
    simp only [rulesLoop, hm, ih]

/-- C15 as stated fails: the patterns of both categories of `overlapRules` match
"STARBUCKS #123"; ranging over the categories in the one order commits the transaction
under "Expenses:Coffee", in the other order under "Expenses:Food". -/
theorem categorizeByRules_depends_on_order :
    overlapRules.reverse.Perm overlapRules ∧
    categorizeByRules (fun p d => some (anchoredLiteral p d)) (some (fun _ => overlapRules))
      [starbucks123] [] = some ([], [{ starbucks123 with From := "Expenses:Coffee" }]) ∧
    categorizeByRules (fun p d => some (anchoredLiteral p d))
      (some (fun _ => overlapRules.reverse))
      [starbucks123] [] = some ([], [{ starbucks123 with From := "Expenses:Food" }]) := by
  decide

/-- C15, amended: for every rule set, every transaction and every order in which the
categories are ranged over, the category that `matchesCategory` returns is the first
category in that order with a pattern matching the description (the empty string when
there is none); and when for every transaction of the batch at most one category name
has a matching pattern, `categorizeByRules` returns the same unmatched list and the same
commits for any two families of orders. -/
theorem categorizeByRules_order_independent (m : String → String → Bool) (rules : Rules)
    (iter1 iter2 : Nat → Rules) (txns db : List Txn)
    (h1 : ∀ k, (iter1 k).Perm rules) (h2 : ∀ k, (iter2 k).Perm rules)
    (huniq : ∀ t ∈ txns, ∀ a ∈ rules, ∀ b ∈ rules, a.2.any (fun p => m p t.Desc) = true →
      b.2.any (fun p => m p t.Desc) = true → a.1 = b.1) :
    (∀ (t : Txn) (k : Nat), matchesCategory (fun p d => some (m p d)) t (iter1 k)
      = some (match (iter1 k).find? (fun r => r.2.any (fun p => m p t.Desc)) with
          | some r => r.1
          | none => "")) ∧
    categorizeByRules (fun p d => some (m p d)) (some iter1) txns db
      = categorizeByRules (fun p d => some (m p d)) (some iter2) txns db := by
  refine ⟨fun t k => matchesCategory_first m t (iter1 k), ?_⟩
  simp only [categorizeByRules, rulesLoop_perm m rules iter1 iter2 h1 h2 txns 0 huniq]

theorem categorizeByRules_order_independent_witness :
    (∀ k : Nat, ((fun _ => overlapRules) k).Perm overlapRules) ∧
    (∀ k : Nat, ((fun _ => overlapRules.reverse) k).Perm overlapRules) ∧
    ruleMatches anchoredLiteral overlapRules starlink = true ∧
    (∀ t ∈ [starlink, taxi], ∀ a ∈ overlapRules, ∀ b ∈ overlapRules,
      a.2.any (fun p => anchoredLiteral p t.Desc) = true →
      b.2.any (fun p => anchoredLiteral p t.Desc) = true → a.1 = b.1) ∧
    categorizeByRules (fun p d => some (anchoredLiteral p d)) (some (fun _ => overlapRules))
        [starlink, taxi] []
      = some ([taxi], [⟨0, "STARLINK 42", -9900, "Expenses:Food", "Assets:Checking", false⟩]) ∧
    categorizeByRules (fun p d => some (anchoredLiteral p d))
        (some (fun _ => overlapRules.reverse)) [starlink, taxi] []
      = some ([taxi], [⟨0, "STARLINK 42", -9900, "Expenses:Food", "Assets:Checking", false⟩]) ∧
    categorizeByRules (fun p d => some (anchoredLiteral p d)) (some (fun _ => overlapRules))
        [starlink, taxi] []
      = categorizeByRules (fun p d => some (anchoredLiteral p d))
        (some (fun _ => overlapRules.reverse)) [starlink, taxi] [] ∧
    matchesCategory (fun p d => some (anchoredLiteral p d)) starbucks123 overlapRules
      = some "Expenses:Coffee" :=
  ⟨fun _ => List.Perm.refl _, fun _ => List.reverse_perm _, by decide, by decide,
    by decide, by decide,
    (categorizeByRules_order_independent anchoredLiteral overlapRules
      (fun _ => overlapRules) (fun _ => overlapRules.reverse) [starlink, taxi] []
      (fun _ => List.Perm.refl _) (fun _ => List.reverse_perm _) (by decide)).2,
    (categorizeByRules_order_independent anchoredLiteral overlapRules
      (fun _ => overlapRules) (fun _ => overlapRules.reverse) [starlink, taxi] []
      (fun _ => List.Perm.refl _) (fun _ => List.reverse_perm _) (by decide)).1
        starbucks123 0⟩

/-- C17: there are a shortcut menu, a transaction with a destination account and a
keystroke sequence for which `p.writeToDB` is called twice for the same transaction. With
the menu `demoKeys` and the transaction "TAXI 17", the byte `e` selects "Expenses", which
has a nested context; the newline byte read in the same run of `printAndGetResult`
commits and the run returns `0`; the walk stays at index 0, and the newline byte read by
the next run commits again and that run returns `1.0`. -/
theorem double_commit_exists :
    demoKeys.HasLabel "Expenses" = true ∧ taxi.To ≠ "" ∧
    categorizeTxn demoEnv 1 taxi [] ['e', Char.ofNat 10, Char.ofNat 10]
      = some (resStay, ⟨0, "TAXI 17", -1800, "Expenses", "Assets:Checking", true⟩,
          [⟨0, "TAXI 17", -1800, "Expenses", "Assets:Checking", false⟩], [Char.ofNat 10]) ∧
    categorizeTxn demoEnv 1 ⟨0, "TAXI 17", -1800, "Expenses", "Assets:Checking", true⟩
        [⟨0, "TAXI 17", -1800, "Expenses", "Assets:Checking", false⟩] [Char.ofNat 10]
      = some (resAdvance, ⟨0, "TAXI 17", -1800, "Expenses", "Assets:Checking", true⟩,
          [⟨0, "TAXI 17", -1800, "Expenses", "Assets:Checking", false⟩,
           ⟨0, "TAXI 17", -1800, "Expenses", "Assets:Checking", true⟩], []) ∧
    walk demoEnv 3 ⟨[taxi], 0, [], ['e', Char.ofNat 10, Char.ofNat 10]⟩
      = some ⟨[⟨0, "TAXI 17", -1800, "Expenses", "Assets:Checking", true⟩], 1,
          [⟨0, "TAXI 17", -1800, "Expenses", "Assets:Checking", false⟩,
           ⟨0, "TAXI 17", -1800, "Expenses", "Assets:Checking", true⟩], []⟩ ∧
    walkIndices demoEnv 3 ⟨[taxi], 0, [], ['e', Char.ofNat 10, Char.ofNat 10]⟩ = [0, 0] := by
  decide

theorem filter_isLetter_allowed (l : List Char) :
    (l.filter allowedChar).filter isLetter = l.filter isLetter := by
  rw [List.filter_filter]
  apply List.filter_congr
  intro c _
  by_cases h : isLetter c = true
  · have ha : allowedChar c = true := by
      simp only [isLetter, Bool.decide_or, Bool.or_eq_true, decide_eq_true_eq] at h
      simp only [allowedChar, Bool.decide_or, Bool.or_eq_true, decide_eq_true_eq]
      exact Or.inl h
    rw [h, ha]
    rfl
  · have h' : isLetter c = false := by simpa using h
    rw [h']
    simp

/-- C19: for every string `s`, the letters-only key of `sanitize s` is the letters-only
key of `s`; hence two strings with equal `sanitize` results have equal letters-only
keys. -/
theorem lettersOnly_sanitize :
    (∀ s : String, lettersOnlyStrip (sanitize s) = lettersOnlyStrip s) ∧
    (∀ a b : String, sanitize a = sanitize b → lettersOnlyStrip a = lettersOnlyStrip b) := by
  have h : ∀ s : String, lettersOnlyStrip (sanitize s) = lettersOnlyStrip s := by
    intro s
    unfold lettersOnlyStrip
    rw [sanitize_data, filter_isLetter_allowed]
  refine ⟨h, ?_⟩
  intro a b hab
  rw [← h a, ← h b, hab]

theorem lettersOnly_sanitize_witness :
    sanitize "AMAZON.COM" = sanitize "AMAZON.COM  " ∧
    lettersOnlyStrip "AMAZON.COM" = lettersOnlyStrip "AMAZON.COM  " ∧
    lettersOnlyStrip "AMAZON.COM  " = "AMAZONCOM" :=
  ⟨by decide, lettersOnly_sanitize.2 "AMAZON.COM" "AMAZON.COM  " (by decide), by decide⟩

end IntoLedger
